import Mathlib

/-!
Verification development for the `algolia-app-diff` tool (src/index.js).

The tool compares the search indices of two Algolia applications ("mesos"
and "kubernetes").  Its pipeline: download/cache each app's index list
(`downloadIndexList`), shortlist indices whose `dataSize` differs
(`getIndicesWithDifferences`), download and normalize the records of each
shortlisted index for both apps (`downloadIndicesWithDifferences`,
`getRecordsFromIndex`), and finally scan the persisted artifacts and report
genuinely different indices (`getDifferentIndices`).

This file shallowly embeds the JavaScript source:
* JavaScript values occurring in records are modelled by `JSValue`
  (undefined, null, numbers as `Int`, strings, and objects as ordered
  association lists).
* lodash `_.sortBy` is modelled exactly as implemented by lodash
  (`baseOrderBy`): each element is paired with its criteria (the values at
  the sort paths) and its arrival index, the pairs are sorted with
  `compareMultiple` (criteria compared by `compareAscending`, ties broken by
  arrival index), and the values are projected back out.  Since the
  index tie-break makes the comparator total, every comparison sort computes
  the same list; we model the sort as a stable insertion sort.
* Remote calls (`listIndexes`, `browseAll`) are oracle parameters; the
  filesystem is explicit state (association list from path to contents).
-/

namespace AlgoliaAppDiff

/-- Model of the JavaScript values that appear inside records: `undefined`,
`null`, numbers (restricted to integers, which is all the tool's data uses),
strings, and plain objects as ordered association lists of fields. -/
inductive JSValue where
  | undefined
  | null
  | num (n : Int)
  | str (s : String)
  | obj (fields : List (String × JSValue))

/-- A record (an Algolia hit) is a plain JavaScript object: an ordered
association list from field name to value. -/
abbrev Record := List (String × JSValue)

/-- JavaScript strict equality `===` restricted to the comparisons performed
by `compareAscending` (`value !== other`).  Primitives compare by value.  Two
object operands compare by reference; records fetched from the API never
alias, so the comparison is `false` for objects — and `compareAscending`
returns 0 for a pair of (non-aliased or structurally equal) objects either
way, so this is result-equivalent to the JavaScript behaviour. -/
def jsEq : JSValue → JSValue → Bool
  | .undefined, .undefined => true
  | .null, .null => true
  | .num a, .num b => a == b
  | .str a, .str b => a == b
  | _, _ => false

/-- Test for the JavaScript `null` value. -/
def JSValue.isNull : JSValue → Bool
  | .null => true
  | _ => false

/-- Test for the JavaScript `undefined` value. -/
def JSValue.isUndef : JSValue → Bool
  | .undefined => true
  | _ => false

/-- JavaScript `<` on characters compares UTF-16 code units; for the scalar
values modelled here this is the code point order, i.e. `Char.toNat`. -/
def charLtB (a b : Char) : Bool := Nat.blt a.toNat b.toNat

/-- Lexicographic (code-unit) order on strings as used by the JavaScript
abstract relational comparison when both operands are strings. -/
def charListLtB : List Char → List Char → Bool
  | _, [] => false
  | [], _ :: _ => true
  | a :: as, b :: bs =>
    if charLtB a b then true
    else if charLtB b a then false
    else charListLtB as bs

/-- JavaScript `Number(string)` restricted to optionally signed decimal
integer literals (after trimming spaces); every other string yields `NaN`,
modelled as `none`.  The tool never relies on numeric strings at the sort
paths, and every use of this function inside `compareAscending` is fenced by
disjuncts that make its exact value irrelevant for null/undefined operands. -/
def parseNumber (s : String) : Option Int :=
  let cs := s.data.filter (fun c => c ≠ ' ')
  match cs with
  | [] => some 0
  | '-' :: ds => if ds ≠ [] ∧ ds.all Char.isDigit then some (-(String.mk ds).toNat!) else none
  | ds => if ds.all Char.isDigit then some ((String.mk ds).toNat!) else none

/-- `ToPrimitive` with number hint as used by the abstract relational
comparison: primitives are themselves; a plain object converts to the string
"[object Object]". -/
def toPrimCmp : JSValue → JSValue
  | .obj _ => .str "[object Object]"
  | v => v

/-- `ToNumber` on a primitive value: `undefined` is `NaN` (`none`), `null` is
0, numbers are themselves, strings parse as numeric literals or `NaN`. -/
def toNumber : JSValue → Option Int
  | .undefined => none
  | .null => some 0
  | .num n => some n
  | .str s => parseNumber s
  | .obj _ => none

/-- The JavaScript abstract relational comparison `a < b`: both operands go
through `ToPrimitive`; if both are strings they compare lexicographically,
otherwise both convert with `ToNumber` and any `NaN` makes the result
`false`. -/
def jsLtB (a b : JSValue) : Bool :=
  match toPrimCmp a, toPrimCmp b with
  | .str x, .str y => charListLtB x.data y.data
  | pa, pb =>
    match toNumber pa, toNumber pb with
    | some x, some y => decide (x < y)
    | _, _ => false

/-- JavaScript `a > b` performs the abstract relational comparison `b < a`. -/
def jsGtB (a b : JSValue) : Bool := jsLtB b a

/-- lodash `compareAscending(value, other)`, specialised to the value forms
modelled here: no symbols occur, and no `NaN` number occurs, so
`valIsSymbol`/`othIsSymbol` are `false` and `valIsReflexive`/`othIsReflexive`
are `true` in the lodash source and are simplified away below.  The structure
of the two conditions mirrors the lodash implementation. -/
def compareAscending (value other : JSValue) : Int :=
  if jsEq value other then 0
  else if (!other.isNull && jsGtB value other)
          || (value.isNull && !other.isUndef)
          || value.isUndef then 1
  else if (!value.isNull && jsLtB value other)
          || (other.isNull && !value.isUndef)
          || other.isUndef then -1
  else 0

/-- The sort key paths passed to `_.sortBy` in `getRecordsFromIndex`
(src/index.js lines 95-105). -/
def sortPaths : List String :=
  ["url",
   "hierarchy.lvl0",
   "hierarchy.lvl1",
   "hierarchy.lvl2",
   "hierarchy.lvl3",
   "hierarchy.lvl4",
   "hierarchy.lvl5",
   "hierarchy.lvl6",
   "weight.position"]

/-- Split a character list at every occurrence of the delimiter `c`
(the semantics of JavaScript `String.prototype.split` with a one-character
separator). -/
def splitChar (c : Char) : List Char → List (List Char)
  | [] => [[]]
  | x :: xs =>
    if x = c then [] :: splitChar c xs
    else
      match splitChar c xs with
      | [] => [[x]]
      | g :: gs => (x :: g) :: gs

/-- lodash `_.toPath` for the simple dotted paths used here: split the path
string on the dots. -/
def stringToPath (s : String) : List String :=
  (splitChar '.' s.data).map String.mk

/-- Property access `fields[k]`: an absent key reads as `undefined`. -/
def getFieldValue (fields : List (String × JSValue)) (k : String) : JSValue :=
  (fields.lookup k).getD .undefined

/-- lodash `baseGet`: walk a path into a value; accessing a property of a
non-object (or of `undefined`/`null`) yields `undefined` for the field names
used here. -/
def baseGet : JSValue → List String → JSValue
  | v, [] => v
  | .obj fields, k :: ks => baseGet (getFieldValue fields k) ks
  | _, _ :: _ => .undefined

/-- The criteria computed by lodash `baseOrderBy` for one record: the values
at the nine sort paths. -/
def criteriaOf (r : Record) : List JSValue :=
  sortPaths.map (fun p => baseGet (.obj r) (stringToPath p))

/-- lodash `compareMultiple` without the index tie-break: compare two
criteria lists position by position with `compareAscending`, returning the
first non-zero result. -/
def lexCmp : List JSValue → List JSValue → Int
  | a :: as, b :: bs =>
    let c := compareAscending a b
    if c = 0 then lexCmp as bs else c
  | _, _ => 0

/-- A sort unit of lodash `baseOrderBy`: criteria, arrival index, value. -/
abbrev SortTriple := List JSValue × Nat × Record

/-- lodash `compareMultiple`: criteria first, then `object.index -
other.index`, which makes the comparator total and the sort stable. -/
def compareMultiple (a b : SortTriple) : Int :=
  let c := lexCmp a.1 b.1
  if c = 0 then (a.2.1 : Int) - (b.2.1 : Int) else c

/-- Insert an element into a list sorted by the comparator `cmp`, before the
first element that does not compare strictly smaller. -/
def insertSorted {α : Type} (cmp : α → α → Int) (x : α) : List α → List α
  | [] => [x]
  | y :: ys => if cmp x y ≤ 0 then x :: y :: ys else y :: insertSorted cmp x ys

/-- Comparison sort by the comparator `cmp`, modelled as a stable insertion
sort.  lodash makes its comparator total via the arrival-index tie-break, and
every comparison sort agrees on a total comparator, so this computes exactly
the list `Array.prototype.sort` produces in `baseOrderBy`. -/
def sortWith {α : Type} (cmp : α → α → Int) (l : List α) : List α :=
  l.foldr (insertSorted cmp) []

/-- lodash `_.omit(record, keys)`: the record without the listed top-level
fields (src/index.js line 94 uses `keys = ['objectID']`). -/
def omitKeys (keys : List String) (r : Record) : Record :=
  r.filter (fun kv => !(keys.contains kv.1))

/-- The sort units fed into the sort in `getRecordsFromIndex`: each record of
the browsed result, with its `objectID` removed, paired with its criteria and
its arrival index. -/
def indexedTriples (records : List Record) : List SortTriple :=
  ((records.map (omitKeys ["objectID"])).enum).map
    (fun p => (criteriaOf p.2, p.1, p.2))

/-- The sorted units of `getRecordsFromIndex`'s end handler. -/
def sortedTriples (records : List Record) : List SortTriple :=
  sortWith compareMultiple (indexedTriples records)

/-- The normalization step of `getRecordsFromIndex` (src/index.js lines
93-106): map every record through `_.omit(record, ['objectID'])` and sort by
the nine key paths (the spec's `normalize`). -/
def normalize (records : List Record) : List Record :=
  (sortedTriples records).map (fun t => t.2.2)

/-- `getRecordsFromIndex(appName, indexName)`: drain the paginated browse of
the index (the oracle `browse`, which either yields all accumulated hits or
the terminal browse error) and normalize the result. -/
def getRecordsFromIndex (browse : String → String → Except String (List Record))
    (appName indexName : String) : Except String (List Record) :=
  (browse appName indexName).map normalize

/-! ### Order theory for the comparator

`compareAscending` is not transitive on arbitrary mixed-type values (a
number and a non-numeric string compare as 0 in JavaScript), but on values
drawn from one primitive class per sort path — strings-or-null-or-undefined,
or numbers-or-null-or-undefined, which is what real records contain — it
coincides with the comparison of an explicit rank/payload key, with `null`
sorting after every string/number and `undefined` sorting last. -/

theorem charLtB_true_iff {a b : Char} : charLtB a b = true ↔ a.toNat < b.toNat := by
  simp [charLtB, Nat.blt_eq]

theorem charLtB_false_iff {a b : Char} : charLtB a b = false ↔ ¬ a.toNat < b.toNat := by
  rw [← Bool.not_eq_true]
  simp [charLtB, Nat.blt_eq]

theorem charLtB_asymm {a b : Char} (h : charLtB a b = true) : charLtB b a = false := by
  rw [charLtB_true_iff] at h
  rw [charLtB_false_iff]
  omega

theorem charLtB_trans {a b c : Char} (h1 : charLtB a b = true) (h2 : charLtB b c = true) :
    charLtB a c = true := by
  rw [charLtB_true_iff] at h1 h2 ⊢
  omega

theorem charLtB_eq_of_not {a b : Char} (h1 : charLtB a b = false) (h2 : charLtB b a = false) :
    a = b := by
  rw [charLtB_false_iff] at h1 h2
  have : a.toNat = b.toNat := by omega
  exact Char.eq_of_val_eq (UInt32.eq_of_toBitVec_eq (BitVec.eq_of_toNat_eq this))

theorem charLtB_irrefl (a : Char) : charLtB a a = false := by
  rw [charLtB_false_iff]
  omega

theorem charListLtB_irrefl (l : List Char) : charListLtB l l = false := by
  induction l with
  | nil => rfl
  | cons a as ih => simp [charListLtB, charLtB_irrefl, ih]

theorem charListLtB_asymm {a b : List Char} (h : charListLtB a b = true) :
    charListLtB b a = false := by
  induction a generalizing b with
  | nil =>
    cases b with
    | nil => simp [charListLtB] at h
    | cons y ys => simp [charListLtB]
  | cons x xs ih =>
    cases b with
    | nil => simp [charListLtB] at h
    | cons y ys =>
      simp only [charListLtB] at h ⊢
      rcases hxy : charLtB x y with _ | _
      · rcases hyx : charLtB y x with _ | _
        · simp only [hxy, hyx, if_false] at h ⊢
          exact ih h
        · simp [hxy, hyx] at h
      · simp only [hxy, if_true] at h
        simp [charLtB_asymm hxy]

theorem charListLtB_trans {a b c : List Char} (h1 : charListLtB a b = true)
    (h2 : charListLtB b c = true) : charListLtB a c = true := by
  induction a generalizing b c with
  | nil =>
    cases b with
    | nil => simp [charListLtB] at h1
    | cons y ys =>
      cases c with
      | nil => simp [charListLtB] at h2
      | cons z zs => simp [charListLtB]
  | cons x xs ih =>
    cases b with
    | nil => simp [charListLtB] at h1
    | cons y ys =>
      cases c with
      | nil => simp [charListLtB] at h2
      | cons z zs =>
        simp only [charListLtB] at h1 h2 ⊢
        rcases hxy : charLtB x y with _ | _
        · rcases hyx : charLtB y x with _ | _
          · have hxyeq : x = y := charLtB_eq_of_not hxy hyx
            subst hxyeq
            simp only [hxy, hyx, if_false] at h1
            rcases hyz : charLtB x z with _ | _
            · rcases hzy : charLtB z x with _ | _
              · have hxz : x = z := charLtB_eq_of_not hyz hzy
                subst hxz
                simp only [hyz, hzy, if_false] at h2 ⊢
                exact ih h1 h2
              · simp [hyz, hzy] at h2
            · simp [hyz]
          · simp [hxy, hyx] at h1
        · rcases hyz : charLtB y z with _ | _
          · rcases hzy : charLtB z y with _ | _
            · have hyzeq : y = z := charLtB_eq_of_not hyz hzy
              subst hyzeq
              simp [hxy]
            · simp [hyz, hzy] at h2
          · simp [charLtB_trans hxy hyz]

theorem charListLtB_eq_of_not {a b : List Char} (h1 : charListLtB a b = false)
    (h2 : charListLtB b a = false) : a = b := by
  induction a generalizing b with
  | nil =>
    cases b with
    | nil => rfl
    | cons y ys => simp [charListLtB] at h1
  | cons x xs ih =>
    cases b with
    | nil => simp [charListLtB] at h2
    | cons y ys =>
      simp only [charListLtB] at h1 h2
      rcases hxy : charLtB x y with _ | _
      · rcases hyx : charLtB y x with _ | _
        · have hx : x = y := charLtB_eq_of_not hxy hyx
          subst hx
          simp only [hxy, if_false] at h1 h2
          rw [ih h1 h2]
        · simp [hxy, hyx] at h2
      · simp [hxy] at h1

/-- Integer strict order as a Bool, the numeric branch of `jsLtB`. -/
def intLtB (a b : Int) : Bool := decide (a < b)

theorem intLtB_asymm {a b : Int} (h : intLtB a b = true) : intLtB b a = false := by
  simp only [intLtB, decide_eq_true_eq] at h
  simp only [intLtB, decide_eq_false_iff_not]
  omega

theorem intLtB_trans {a b c : Int} (h1 : intLtB a b = true) (h2 : intLtB b c = true) :
    intLtB a c = true := by
  simp only [intLtB, decide_eq_true_eq] at h1 h2 ⊢
  omega

theorem intLtB_eq_of_not {a b : Int} (h1 : intLtB a b = false) (h2 : intLtB b a = false) :
    a = b := by
  simp only [intLtB, decide_eq_false_iff_not] at h1 h2
  omega

/-- Three-way comparison of (rank, payload) keys: by rank first, then by the
payload order `lt`. -/
def pairCmpWith {β : Type} (lt : β → β → Bool) (a b : Nat × β) : Int :=
  if a.1 < b.1 then -1
  else if b.1 < a.1 then 1
  else if lt a.2 b.2 then -1
  else if lt b.2 a.2 then 1
  else 0

theorem pairCmpWith_neg {β : Type} (lt : β → β → Bool)
    (hasym : ∀ x y : β, lt x y = true → lt y x = false) (a b : Nat × β) :
    pairCmpWith lt a b = -(pairCmpWith lt b a) := by
  simp only [pairCmpWith]
  rcases Nat.lt_trichotomy a.1 b.1 with h | h | h
  · simp [h, Nat.lt_asymm h]
  · simp only [h, lt_self_iff_false, if_false]
    rcases hab : lt a.2 b.2 with _ | _
    · rcases hba : lt b.2 a.2 with _ | _
      · simp
      · simp [hasym _ _ hba]
    · simp [hasym _ _ hab]
  · simp [h, Nat.lt_asymm h]

theorem pairCmpWith_eq_zero {β : Type} (lt : β → β → Bool)
    (heq : ∀ x y : β, lt x y = false → lt y x = false → x = y) {a b : Nat × β}
    (h : pairCmpWith lt a b = 0) : a = b := by
  simp only [pairCmpWith] at h
  rcases Nat.lt_trichotomy a.1 b.1 with h1 | h1 | h1
  · simp [h1] at h
  · simp only [h1, lt_self_iff_false, if_false] at h
    rcases hab : lt a.2 b.2 with _ | _
    · rcases hba : lt b.2 a.2 with _ | _
      · exact Prod.ext h1 (heq _ _ hab hba)
      · simp [hab, hba] at h
    · simp [hab] at h
  · simp [h1, Nat.lt_asymm h1] at h

theorem pairCmpWith_le_iff {β : Type} (lt : β → β → Bool)
    (hasym : ∀ x y : β, lt x y = true → lt y x = false)
    (heq : ∀ x y : β, lt x y = false → lt y x = false → x = y) (a b : Nat × β) :
    pairCmpWith lt a b ≤ 0 ↔
      a.1 < b.1 ∨ (a.1 = b.1 ∧ (lt a.2 b.2 = true ∨ a.2 = b.2)) := by
  have hirr : ∀ x : β, lt x x = false := by
    intro x
    rcases hx : lt x x with _ | _
    · rfl
    · rw [← hx]
      exact hasym _ _ hx
  rcases Nat.lt_trichotomy a.1 b.1 with h1 | h1 | h1
  · simp [pairCmpWith, h1]
  · rcases hab : lt a.2 b.2 with _ | _
    · rcases hba : lt b.2 a.2 with _ | _
      · have hev : a.2 = b.2 := heq _ _ hab hba
        simp [pairCmpWith, h1, hab, hba, hev, hirr]
      · have hne : a.2 ≠ b.2 := by
          intro he
          rw [he] at hba
          rw [hirr b.2] at hba
          exact Bool.false_ne_true hba
        simp [pairCmpWith, h1, hab, hba, hne]
    · simp [pairCmpWith, h1, hab]
  · simp [pairCmpWith, h1, Nat.lt_asymm h1, ne_of_gt h1]

theorem pairCmpWith_le_trans {β : Type} (lt : β → β → Bool)
    (hasym : ∀ x y : β, lt x y = true → lt y x = false)
    (htrans : ∀ x y z : β, lt x y = true → lt y z = true → lt x z = true)
    (heq : ∀ x y : β, lt x y = false → lt y x = false → x = y) (a b c : Nat × β)
    (h1 : pairCmpWith lt a b ≤ 0) (h2 : pairCmpWith lt b c ≤ 0) :
    pairCmpWith lt a c ≤ 0 := by
  rw [pairCmpWith_le_iff lt hasym heq] at h1 h2 ⊢
  rcases h1 with h1 | ⟨h1e, h1p⟩
  · rcases h2 with h2 | ⟨h2e, -⟩
    · exact Or.inl (Nat.lt_trans h1 h2)
    · exact Or.inl (h2e ▸ h1)
  · rcases h2 with h2 | ⟨h2e, h2p⟩
    · exact Or.inl (h1e ▸ h2)
    · refine Or.inr ⟨h1e.trans h2e, ?_⟩
      rcases h1p with h1p | h1p
      · rcases h2p with h2p | h2p
        · exact Or.inl (htrans _ _ _ h1p h2p)
        · exact Or.inl (h2p ▸ h1p)
      · rcases h2p with h2p | h2p
        · exact Or.inl (h1p ▸ h2p)
        · exact Or.inr (h1p.trans h2p)

/-- Value class: a string, or null, or undefined — the shape of the values
real records carry at `url` and the `hierarchy` levels. -/
def isStrLikeB : JSValue → Bool
  | .str _ => true
  | .null => true
  | .undefined => true
  | _ => false

/-- Value class: an integer, or null, or undefined — the shape of the values
real records carry at `weight.position`. -/
def isNumLikeB : JSValue → Bool
  | .num _ => true
  | .null => true
  | .undefined => true
  | _ => false

/-- Rank/payload key of a string-like value: strings sort by their text,
`null` after every string, `undefined` last. -/
def strKey : JSValue → Nat × List Char
  | .str s => (0, s.data)
  | .null => (1, [])
  | .undefined => (2, [])
  | _ => (0, [])

/-- Rank/payload key of a number-like value: numbers sort by value, `null`
after every number, `undefined` last. -/
def numKey : JSValue → Nat × Int
  | .num n => (0, n)
  | .null => (1, 0)
  | .undefined => (2, 0)
  | _ => (0, 0)

theorem compareAscending_strLike (v o : JSValue) (hv : isStrLikeB v = true)
    (ho : isStrLikeB o = true) :
    compareAscending v o = pairCmpWith charListLtB (strKey v) (strKey o) := by
  cases v with
  | str a =>
    cases o with
    | str b =>
      by_cases hab : a = b
      · subst hab
        simp [compareAscending, jsEq, pairCmpWith, strKey, charListLtB_irrefl]
      · rcases h1 : charListLtB b.data a.data with _ | _
        · rcases h2 : charListLtB a.data b.data with _ | _
          · simp [compareAscending, jsEq, hab, jsGtB, jsLtB, toPrimCmp,
              JSValue.isNull, JSValue.isUndef, h1, h2, pairCmpWith, strKey]
          · simp [compareAscending, jsEq, hab, jsGtB, jsLtB, toPrimCmp,
              JSValue.isNull, JSValue.isUndef, h1, h2, pairCmpWith, strKey]
        · simp [compareAscending, jsEq, hab, jsGtB, jsLtB, toPrimCmp,
            JSValue.isNull, JSValue.isUndef, h1, charListLtB_asymm h1,
            pairCmpWith, strKey]
    | null =>
      simp [compareAscending, jsEq, jsGtB, jsLtB, toPrimCmp, toNumber,
        JSValue.isNull, JSValue.isUndef, pairCmpWith, strKey]
    | undefined =>
      simp [compareAscending, jsEq, jsGtB, jsLtB, toPrimCmp, toNumber,
        JSValue.isNull, JSValue.isUndef, pairCmpWith, strKey]
    | num n => simp [isStrLikeB] at ho
    | obj fs => simp [isStrLikeB] at ho
  | null =>
    cases o with
    | str b =>
      simp [compareAscending, jsEq, jsGtB, jsLtB, toPrimCmp, toNumber,
        JSValue.isNull, JSValue.isUndef, pairCmpWith, strKey]
    | null =>
      simp [compareAscending, jsEq, pairCmpWith, strKey, charListLtB_irrefl]
    | undefined =>
      simp [compareAscending, jsEq, jsGtB, jsLtB, toPrimCmp, toNumber,
        JSValue.isNull, JSValue.isUndef, pairCmpWith, strKey]
    | num n => simp [isStrLikeB] at ho
    | obj fs => simp [isStrLikeB] at ho
  | undefined =>
    cases o with
    | str b =>
      simp [compareAscending, jsEq, jsGtB, jsLtB, toPrimCmp, toNumber,
        JSValue.isNull, JSValue.isUndef, pairCmpWith, strKey]
    | null =>
      simp [compareAscending, jsEq, jsGtB, jsLtB, toPrimCmp, toNumber,
        JSValue.isNull, JSValue.isUndef, pairCmpWith, strKey]
    | undefined =>
      simp [compareAscending, jsEq, pairCmpWith, strKey, charListLtB_irrefl]
    | num n => simp [isStrLikeB] at ho
    | obj fs => simp [isStrLikeB] at ho
  | num n => simp [isStrLikeB] at hv
  | obj fs => simp [isStrLikeB] at hv

theorem compareAscending_numLike (v o : JSValue) (hv : isNumLikeB v = true)
    (ho : isNumLikeB o = true) :
    compareAscending v o = pairCmpWith intLtB (numKey v) (numKey o) := by
  cases v with
  | num x =>
    cases o with
    | num y =>
      by_cases hxy : x = y
      · subst hxy
        simp [compareAscending, jsEq, pairCmpWith, numKey, intLtB]
      · rcases Int.lt_trichotomy x y with h | h | h
        · have h1 : decide (y < x) = false := by
            simp only [decide_eq_false_iff_not]
            omega
          have h2 : decide (x < y) = true := by simp [h]
          simp [compareAscending, jsEq, hxy, jsGtB, jsLtB, toPrimCmp, toNumber,
            JSValue.isNull, JSValue.isUndef, h1, h2, pairCmpWith, numKey, intLtB]
        · exact absurd h hxy
        · have h1 : decide (y < x) = true := by simp [h]
          have h2 : decide (x < y) = false := by
            simp only [decide_eq_false_iff_not]
            omega
          simp [compareAscending, jsEq, hxy, jsGtB, jsLtB, toPrimCmp, toNumber,
            JSValue.isNull, JSValue.isUndef, h1, h2, pairCmpWith, numKey, intLtB]
    | null =>
      simp [compareAscending, jsEq, jsGtB, jsLtB, toPrimCmp, toNumber,
        JSValue.isNull, JSValue.isUndef, pairCmpWith, numKey]
    | undefined =>
      simp [compareAscending, jsEq, jsGtB, jsLtB, toPrimCmp, toNumber,
        JSValue.isNull, JSValue.isUndef, pairCmpWith, numKey]
    | str s => simp [isNumLikeB] at ho
    | obj fs => simp [isNumLikeB] at ho
  | null =>
    cases o with
    | num y =>
      simp [compareAscending, jsEq, jsGtB, jsLtB, toPrimCmp, toNumber,
        JSValue.isNull, JSValue.isUndef, pairCmpWith, numKey]
    | null =>
      simp [compareAscending, jsEq, pairCmpWith, numKey, intLtB]
    | undefined =>
      simp [compareAscending, jsEq, jsGtB, jsLtB, toPrimCmp, toNumber,
        JSValue.isNull, JSValue.isUndef, pairCmpWith, numKey]
    | str s => simp [isNumLikeB] at ho
    | obj fs => simp [isNumLikeB] at ho
  | undefined =>
    cases o with
    | num y =>
      simp [compareAscending, jsEq, jsGtB, jsLtB, toPrimCmp, toNumber,
        JSValue.isNull, JSValue.isUndef, pairCmpWith, numKey]
    | null =>
      simp [compareAscending, jsEq, jsGtB, jsLtB, toPrimCmp, toNumber,
        JSValue.isNull, JSValue.isUndef, pairCmpWith, numKey]
    | undefined =>
      simp [compareAscending, jsEq, pairCmpWith, numKey, intLtB]
    | str s => simp [isNumLikeB] at ho
    | obj fs => simp [isNumLikeB] at ho
  | str s => simp [isNumLikeB] at hv
  | obj fs => simp [isNumLikeB] at hv

theorem compareAscending_undefined_right (v : JSValue) (h : v ≠ .undefined) :
    compareAscending v .undefined = -1 := by
  cases v with
  | undefined => exact absurd rfl h
  | null =>
    simp [compareAscending, jsEq, jsGtB, jsLtB, toPrimCmp, toNumber,
      JSValue.isNull, JSValue.isUndef]
  | num n =>
    simp [compareAscending, jsEq, jsGtB, jsLtB, toPrimCmp, toNumber,
      JSValue.isNull, JSValue.isUndef]
  | str s =>
    simp [compareAscending, jsEq, jsGtB, jsLtB, toPrimCmp, toNumber,
      JSValue.isNull, JSValue.isUndef]
  | obj fs =>
    simp [compareAscending, jsEq, jsGtB, jsLtB, toPrimCmp, toNumber,
      JSValue.isNull, JSValue.isUndef]

theorem compareAscending_undefined_left (v : JSValue) (h : v ≠ .undefined) :
    compareAscending .undefined v = 1 := by
  cases v with
  | undefined => exact absurd rfl h
  | null => simp [compareAscending, jsEq, JSValue.isNull, JSValue.isUndef]
  | num n => simp [compareAscending, jsEq, JSValue.isNull, JSValue.isUndef]
  | str s => simp [compareAscending, jsEq, JSValue.isNull, JSValue.isUndef]
  | obj fs => simp [compareAscending, jsEq, JSValue.isNull, JSValue.isUndef]

/-- The value a record carries at one lodash sort path. -/
def keyValueAt (r : Record) (p : String) : JSValue :=
  baseGet (.obj r) (stringToPath p)

theorem criteriaOf_eq_map (r : Record) : criteriaOf r = sortPaths.map (keyValueAt r) := rfl

theorem lexCmp_cons (x y : JSValue) (xs ys : List JSValue) :
    lexCmp (x :: xs) (y :: ys)
      = if compareAscending x y = 0 then lexCmp xs ys else compareAscending x y := rfl

/-- Two values lie in a common primitive class. -/
def Class2 (u v : JSValue) : Prop :=
  (isStrLikeB u = true ∧ isStrLikeB v = true) ∨
  (isNumLikeB u = true ∧ isNumLikeB v = true)

/-- Three values lie in a common primitive class. -/
def Class3 (u v w : JSValue) : Prop :=
  (isStrLikeB u = true ∧ isStrLikeB v = true ∧ isStrLikeB w = true) ∨
  (isNumLikeB u = true ∧ isNumLikeB v = true ∧ isNumLikeB w = true)

theorem compareAscending_neg_of_class2 {u v : JSValue} (h : Class2 u v) :
    compareAscending v u = -(compareAscending u v) := by
  rcases h with ⟨h1, h2⟩ | ⟨h1, h2⟩
  · rw [compareAscending_strLike _ _ h1 h2, compareAscending_strLike _ _ h2 h1]
    exact pairCmpWith_neg charListLtB (fun x y hx => charListLtB_asymm hx) _ _
  · rw [compareAscending_numLike _ _ h1 h2, compareAscending_numLike _ _ h2 h1]
    exact pairCmpWith_neg intLtB (fun x y hx => intLtB_asymm hx) _ _

theorem pairCmpWith_facts {β : Type} (lt : β → β → Bool)
    (hasym : ∀ x y : β, lt x y = true → lt y x = false)
    (htrans : ∀ x y z : β, lt x y = true → lt y z = true → lt x z = true)
    (heq : ∀ x y : β, lt x y = false → lt y x = false → x = y) (ku kv kw : Nat × β) :
    (pairCmpWith lt ku kv = 0 → pairCmpWith lt ku kw = pairCmpWith lt kv kw) ∧
    (pairCmpWith lt kv kw = 0 → pairCmpWith lt ku kw = pairCmpWith lt ku kv) ∧
    (pairCmpWith lt ku kv ≤ 0 → pairCmpWith lt kv kw ≤ 0 → pairCmpWith lt ku kw ≤ 0) ∧
    (pairCmpWith lt ku kw = 0 → pairCmpWith lt ku kv = -(pairCmpWith lt kv kw)) := by
  refine ⟨?_, ?_, ?_, ?_⟩
  · intro h
    rw [pairCmpWith_eq_zero lt heq h]
  · intro h
    rw [pairCmpWith_eq_zero lt heq h]
  · exact pairCmpWith_le_trans lt hasym htrans heq ku kv kw
  · intro h
    rw [pairCmpWith_eq_zero lt heq h]
    exact pairCmpWith_neg lt hasym kw kv

theorem compareAscending_class3 {u v w : JSValue} (h : Class3 u v w) :
    (compareAscending u v = 0 → compareAscending u w = compareAscending v w) ∧
    (compareAscending v w = 0 → compareAscending u w = compareAscending u v) ∧
    (compareAscending u v ≤ 0 → compareAscending v w ≤ 0 → compareAscending u w ≤ 0) ∧
    (compareAscending u w = 0 → compareAscending u v = -(compareAscending v w)) := by
  rcases h with ⟨h1, h2, h3⟩ | ⟨h1, h2, h3⟩
  · rw [compareAscending_strLike _ _ h1 h2, compareAscending_strLike _ _ h2 h3,
      compareAscending_strLike _ _ h1 h3]
    exact pairCmpWith_facts charListLtB (fun x y hx => charListLtB_asymm hx)
      (fun x y z hx hy => charListLtB_trans hx hy)
      (fun x y hx hy => charListLtB_eq_of_not hx hy) _ _ _
  · rw [compareAscending_numLike _ _ h1 h2, compareAscending_numLike _ _ h2 h3,
      compareAscending_numLike _ _ h1 h3]
    exact pairCmpWith_facts intLtB (fun x y hx => intLtB_asymm hx)
      (fun x y z hx hy => intLtB_trans hx hy)
      (fun x y hx hy => intLtB_eq_of_not hx hy) _ _ _

theorem lexCmp_neg_of (ps : List String) (a b : Record)
    (h : ∀ p ∈ ps, Class2 (keyValueAt a p) (keyValueAt b p)) :
    lexCmp (ps.map (keyValueAt b)) (ps.map (keyValueAt a))
      = -(lexCmp (ps.map (keyValueAt a)) (ps.map (keyValueAt b))) := by
  induction ps with
  | nil => simp [lexCmp]
  | cons p ps ih =>
    have hp := h p (List.mem_cons_self p ps)
    have ht := fun q hq => h q (List.mem_cons_of_mem p hq)
    simp only [List.map_cons, lexCmp_cons]
    rw [compareAscending_neg_of_class2 hp]
    by_cases hc : compareAscending (keyValueAt a p) (keyValueAt b p) = 0
    · simp [hc, ih ht]
    · have hc2 : ¬(-(compareAscending (keyValueAt a p) (keyValueAt b p)) = 0) := by
        omega
      simp [hc, hc2]

theorem lexCmp_trans_of (ps : List String) (a b c : Record)
    (h : ∀ p ∈ ps, Class3 (keyValueAt a p) (keyValueAt b p) (keyValueAt c p))
    (h1 : lexCmp (ps.map (keyValueAt a)) (ps.map (keyValueAt b)) ≤ 0)
    (h2 : lexCmp (ps.map (keyValueAt b)) (ps.map (keyValueAt c)) ≤ 0) :
    lexCmp (ps.map (keyValueAt a)) (ps.map (keyValueAt c)) ≤ 0 ∧
      (lexCmp (ps.map (keyValueAt a)) (ps.map (keyValueAt c)) = 0 →
        lexCmp (ps.map (keyValueAt a)) (ps.map (keyValueAt b)) = 0 ∧
        lexCmp (ps.map (keyValueAt b)) (ps.map (keyValueAt c)) = 0) := by
  induction ps with
  | nil => simp [lexCmp]
  | cons p ps ih =>
    have hp := compareAscending_class3 (h p (List.mem_cons_self p ps))
    have ht := fun q hq => h q (List.mem_cons_of_mem p hq)
    simp only [List.map_cons, lexCmp_cons] at h1 h2 ⊢
    by_cases hcu : compareAscending (keyValueAt a p) (keyValueAt b p) = 0
    · by_cases hcv : compareAscending (keyValueAt b p) (keyValueAt c p) = 0
      · have hcw : compareAscending (keyValueAt a p) (keyValueAt c p) = 0 := by
          rw [hp.1 hcu]
          exact hcv
        simp only [hcu, hcv, hcw, if_true] at h1 h2 ⊢
        exact ih ht h1 h2
      · have hcw : compareAscending (keyValueAt a p) (keyValueAt c p)
            = compareAscending (keyValueAt b p) (keyValueAt c p) := hp.1 hcu
        simp only [hcv, if_false] at h2
        rw [hcw]
        simp only [hcv, if_false]
        exact ⟨h2, fun h0 => h0.elim⟩
    · simp only [hcu, if_false] at h1
      have hcu_lt : compareAscending (keyValueAt a p) (keyValueAt b p) < 0 := by
        omega
      by_cases hcv : compareAscending (keyValueAt b p) (keyValueAt c p) = 0
      · have hcw : compareAscending (keyValueAt a p) (keyValueAt c p)
            = compareAscending (keyValueAt a p) (keyValueAt b p) := hp.2.1 hcv
        rw [hcw]
        simp only [hcu, if_false]
        exact ⟨h1, fun h0 => h0.elim⟩
      · simp only [hcv, if_false] at h2
        have hcv_lt : compareAscending (keyValueAt b p) (keyValueAt c p) < 0 := by
          omega
        have hcw_le : compareAscending (keyValueAt a p) (keyValueAt c p) ≤ 0 :=
          hp.2.2.1 h1 h2
        have hcw_ne : compareAscending (keyValueAt a p) (keyValueAt c p) ≠ 0 := by
          intro h0
          have := hp.2.2.2 h0
          omega
        simp only [hcw_ne, if_false]
        exact ⟨hcw_le, fun h0 => h0.elim⟩

theorem compareMultiple_def (a b : SortTriple) :
    compareMultiple a b
      = if lexCmp a.1 b.1 = 0 then ((a.2.1 : Int) - (b.2.1 : Int)) else lexCmp a.1 b.1 := rfl

theorem insertSorted_perm {α : Type} (cmp : α → α → Int) (x : α) (l : List α) :
    (insertSorted cmp x l).Perm (x :: l) := by
  induction l with
  | nil => exact List.Perm.refl _
  | cons y ys ih =>
    simp only [insertSorted]
    by_cases h : cmp x y ≤ 0
    · rw [if_pos h]
    · rw [if_neg h]
      exact (List.Perm.cons y ih).trans (List.Perm.swap x y ys)

theorem sortWith_perm {α : Type} (cmp : α → α → Int) (l : List α) :
    (sortWith cmp l).Perm l := by
  induction l with
  | nil => exact List.Perm.refl _
  | cons x xs ih =>
    have hstep : sortWith cmp (x :: xs) = insertSorted cmp x (sortWith cmp xs) := rfl
    rw [hstep]
    exact (insertSorted_perm cmp x (sortWith cmp xs)).trans (List.Perm.cons x ih)

theorem insertSorted_pairwise {α : Type} (cmp : α → α → Int) (x : α) (l : List α)
    (htot : ∀ b ∈ l, cmp x b ≤ 0 ∨ cmp b x ≤ 0)
    (htrans : ∀ p ∈ x :: l, ∀ q ∈ x :: l, ∀ r ∈ x :: l,
      cmp p q ≤ 0 → cmp q r ≤ 0 → cmp p r ≤ 0)
    (hl : l.Pairwise (fun p q => cmp p q ≤ 0)) :
    (insertSorted cmp x l).Pairwise (fun p q => cmp p q ≤ 0) := by
  induction l with
  | nil => simp [insertSorted]
  | cons y ys ih =>
    rcases List.pairwise_cons.mp hl with ⟨hy, hys⟩
    simp only [insertSorted]
    by_cases h : cmp x y ≤ 0
    · rw [if_pos h]
      refine List.pairwise_cons.mpr ⟨?_, hl⟩
      intro z hz
      rcases List.mem_cons.mp hz with rfl | hz2
      · exact h
      · exact htrans x (List.mem_cons_self _ _)
          y (List.mem_cons_of_mem _ (List.mem_cons_self _ _))
          z (List.mem_cons_of_mem _ (List.mem_cons_of_mem _ hz2)) h (hy z hz2)
    · rw [if_neg h]
      have hyx : cmp y x ≤ 0 := (htot y (List.mem_cons_self _ _)).resolve_left h
      have hsub : ∀ p, p ∈ x :: ys → p ∈ x :: y :: ys := by
        intro p hp
        rcases List.mem_cons.mp hp with rfl | hp2
        · exact List.mem_cons_self _ _
        · exact List.mem_cons_of_mem _ (List.mem_cons_of_mem _ hp2)
      refine List.pairwise_cons.mpr ⟨?_, ?_⟩
      · intro z hz
        have hz2 := (insertSorted_perm cmp x ys).mem_iff.mp hz
        rcases List.mem_cons.mp hz2 with rfl | hz3
        · exact hyx
        · exact hy z hz3
      · refine ih (fun b hb => htot b (List.mem_cons_of_mem _ hb)) ?_ hys
        intro p hp q hq r hr
        exact htrans p (hsub p hp) q (hsub q hq) r (hsub r hr)

theorem sortWith_pairwise {α : Type} (cmp : α → α → Int) (l : List α)
    (htot : ∀ a ∈ l, ∀ b ∈ l, cmp a b ≤ 0 ∨ cmp b a ≤ 0)
    (htrans : ∀ a ∈ l, ∀ b ∈ l, ∀ c ∈ l, cmp a b ≤ 0 → cmp b c ≤ 0 → cmp a c ≤ 0) :
    (sortWith cmp l).Pairwise (fun p q => cmp p q ≤ 0) := by
  induction l with
  | nil => simp [sortWith]
  | cons x xs ih =>
    have hstep : sortWith cmp (x :: xs) = insertSorted cmp x (sortWith cmp xs) := rfl
    rw [hstep]
    have hmem : ∀ b, b ∈ sortWith cmp xs → b ∈ xs :=
      fun b hb => (sortWith_perm cmp xs).mem_iff.mp hb
    have hsub : ∀ p, p ∈ x :: sortWith cmp xs → p ∈ x :: xs := by
      intro p hp
      rcases List.mem_cons.mp hp with rfl | hp2
      · exact List.mem_cons_self _ _
      · exact List.mem_cons_of_mem _ (hmem p hp2)
    refine insertSorted_pairwise cmp x (sortWith cmp xs) ?_ ?_ ?_
    · intro b hb
      exact htot x (List.mem_cons_self _ _) b (List.mem_cons_of_mem _ (hmem b hb))
    · intro p hp q hq r hr
      exact htrans p (hsub p hp) q (hsub q hq) r (hsub r hr)
    · exact ih
        (fun a ha b hb => htot a (List.mem_cons_of_mem _ ha) b (List.mem_cons_of_mem _ hb))
        (fun a ha b hb c hc => htrans a (List.mem_cons_of_mem _ ha)
          b (List.mem_cons_of_mem _ hb) c (List.mem_cons_of_mem _ hc))

/-- Per-path type homogeneity: at each of the nine sort paths, all records of
the collection carry a string-like value, or all carry a number-like value
(`null` and `undefined`, i.e. missing, are allowed in both classes).  This is
the shape of real DocSearch records: `url` and the hierarchy levels are
strings or null, `weight.position` is a number. -/
def SortKeysOk (records : List Record) : Prop :=
  ∀ p ∈ sortPaths,
    (∀ r ∈ records, isStrLikeB (keyValueAt r p) = true) ∨
    (∀ r ∈ records, isNumLikeB (keyValueAt r p) = true)

instance (records : List Record) : Decidable (SortKeysOk records) := by
  unfold SortKeysOk
  infer_instance

theorem lookup_omitKeys (keys : List String) (r : Record) (k : String)
    (hk : keys.contains k = false) :
    (omitKeys keys r).lookup k = r.lookup k := by
  induction r with
  | nil => rfl
  | cons kv t ih =>
    cases kv with
    | mk k1 v1 =>
      show (List.filter _ ((k1, v1) :: t)).lookup k = _
      rw [List.filter_cons]
      rcases hdrop : keys.contains k1 with _ | _
      · simp only [hdrop, Bool.not_false, if_true]
        rcases hke : k == k1 with _ | _
        · simp only [List.lookup, hke]
          exact ih
        · simp only [List.lookup, hke]
      · have hne : (k == k1) = false := by
          rcases hke : k == k1 with _ | _
          · rfl
          · have hkk : k = k1 := by simpa using hke
            rw [hkk] at hk
            rw [hk] at hdrop
            exact Bool.noConfusion hdrop
        simp only [hdrop, Bool.not_true, Bool.false_eq_true, if_false]
        rw [show (List.filter (fun kv => !keys.contains kv.1) t).lookup k
            = List.lookup k t from ih]
        simp only [List.lookup, hne]

theorem keyValueAt_head (r : Record) (p k : String) (ks : List String)
    (hk : stringToPath p = k :: ks) (hne : (["objectID"].contains k) = false) :
    keyValueAt (omitKeys ["objectID"] r) p = keyValueAt r p := by
  simp only [keyValueAt, hk, baseGet]
  congr 1
  simp only [getFieldValue]
  rw [lookup_omitKeys _ _ _ hne]

theorem keyValueAt_omit (r : Record) (p : String) (hp : p ∈ sortPaths) :
    keyValueAt (omitKeys ["objectID"] r) p = keyValueAt r p := by
  fin_cases hp <;> exact keyValueAt_head r _ _ _ rfl rfl

theorem mem_indexedTriples {t : SortTriple} {records : List Record}
    (ht : t ∈ indexedTriples records) :
    t.1 = criteriaOf t.2.2 ∧ t.2.2 ∈ records.map (omitKeys ["objectID"]) := by
  rcases List.mem_map.mp ht with ⟨p, hp, rfl⟩
  refine ⟨rfl, ?_⟩
  have hsnd : p.2 ∈ (records.map (omitKeys ["objectID"])).enum.map Prod.snd :=
    List.mem_map_of_mem Prod.snd hp
  rwa [List.enum_map_snd] at hsnd

theorem class2_of_sortKeysOk {records : List Record} (h : SortKeysOk records)
    {a b : Record} (ha : a ∈ records.map (omitKeys ["objectID"]))
    (hb : b ∈ records.map (omitKeys ["objectID"])) :
    ∀ p ∈ sortPaths, Class2 (keyValueAt a p) (keyValueAt b p) := by
  intro p hp
  rcases List.mem_map.mp ha with ⟨a0, ha0, rfl⟩
  rcases List.mem_map.mp hb with ⟨b0, hb0, rfl⟩
  rw [keyValueAt_omit _ _ hp, keyValueAt_omit _ _ hp]
  rcases h p hp with hs | hn
  · exact Or.inl ⟨hs a0 ha0, hs b0 hb0⟩
  · exact Or.inr ⟨hn a0 ha0, hn b0 hb0⟩

theorem class3_of_sortKeysOk {records : List Record} (h : SortKeysOk records)
    {a b c : Record} (ha : a ∈ records.map (omitKeys ["objectID"]))
    (hb : b ∈ records.map (omitKeys ["objectID"]))
    (hc : c ∈ records.map (omitKeys ["objectID"])) :
    ∀ p ∈ sortPaths, Class3 (keyValueAt a p) (keyValueAt b p) (keyValueAt c p) := by
  intro p hp
  rcases List.mem_map.mp ha with ⟨a0, ha0, rfl⟩
  rcases List.mem_map.mp hb with ⟨b0, hb0, rfl⟩
  rcases List.mem_map.mp hc with ⟨c0, hc0, rfl⟩
  rw [keyValueAt_omit _ _ hp, keyValueAt_omit _ _ hp, keyValueAt_omit _ _ hp]
  rcases h p hp with hs | hn
  · exact Or.inl ⟨hs a0 ha0, hs b0 hb0, hs c0 hc0⟩
  · exact Or.inr ⟨hn a0 ha0, hn b0 hb0, hn c0 hc0⟩

theorem compareMultiple_total_of {records : List Record} (h : SortKeysOk records) :
    ∀ t ∈ indexedTriples records, ∀ u ∈ indexedTriples records,
      compareMultiple t u ≤ 0 ∨ compareMultiple u t ≤ 0 := by
  intro t ht u hu
  obtain ⟨hct, hmt⟩ := mem_indexedTriples ht
  obtain ⟨hcu, hmu⟩ := mem_indexedTriples hu
  have hneg : lexCmp u.1 t.1 = -(lexCmp t.1 u.1) := by
    rw [hct, hcu, criteriaOf_eq_map, criteriaOf_eq_map]
    exact lexCmp_neg_of sortPaths _ _ (class2_of_sortKeysOk h hmt hmu)
  rw [compareMultiple_def, compareMultiple_def, hneg]
  by_cases hz : lexCmp t.1 u.1 = 0
  · simp only [hz, neg_zero, if_true]
    omega
  · have hz2 : ¬(-(lexCmp t.1 u.1) = 0) := by omega
    simp only [hz, hz2, if_false]
    omega

theorem compareMultiple_trans_of {records : List Record} (h : SortKeysOk records) :
    ∀ t ∈ indexedTriples records, ∀ u ∈ indexedTriples records,
      ∀ w ∈ indexedTriples records,
      compareMultiple t u ≤ 0 → compareMultiple u w ≤ 0 → compareMultiple t w ≤ 0 := by
  intro t ht u hu w hw h1 h2
  obtain ⟨hct, hmt⟩ := mem_indexedTriples ht
  obtain ⟨hcu, hmu⟩ := mem_indexedTriples hu
  obtain ⟨hcw, hmw⟩ := mem_indexedTriples hw
  rw [compareMultiple_def] at h1 h2 ⊢
  have h1le : lexCmp t.1 u.1 ≤ 0 := by
    by_cases hz : lexCmp t.1 u.1 = 0
    · omega
    · simp only [hz, if_false] at h1
      exact h1
  have h2le : lexCmp u.1 w.1 ≤ 0 := by
    by_cases hz : lexCmp u.1 w.1 = 0
    · omega
    · simp only [hz, if_false] at h2
      exact h2
  have hmaster := lexCmp_trans_of sortPaths t.2.2 u.2.2 w.2.2
      (class3_of_sortKeysOk h hmt hmu hmw)
      (by rw [← criteriaOf_eq_map, ← criteriaOf_eq_map, ← hct, ← hcu]; exact h1le)
      (by rw [← criteriaOf_eq_map, ← criteriaOf_eq_map, ← hcu, ← hcw]; exact h2le)
  have hl3 : lexCmp t.1 w.1 ≤ 0 := by
    rw [hct, hcw, criteriaOf_eq_map, criteriaOf_eq_map]
    exact hmaster.1
  by_cases hz : lexCmp t.1 w.1 = 0
  · have hz0 : lexCmp (sortPaths.map (keyValueAt t.2.2)) (sortPaths.map (keyValueAt w.2.2)) = 0 := by
      rw [← criteriaOf_eq_map, ← criteriaOf_eq_map, ← hct, ← hcw]
      exact hz
    have hz12 := hmaster.2 hz0
    have hz1 : lexCmp t.1 u.1 = 0 := by
      rw [hct, hcu, criteriaOf_eq_map, criteriaOf_eq_map]
      exact hz12.1
    have hz2 : lexCmp u.1 w.1 = 0 := by
      rw [hcu, hcw, criteriaOf_eq_map, criteriaOf_eq_map]
      exact hz12.2
    simp only [hz1, if_true] at h1
    simp only [hz2, if_true] at h2
    simp only [hz, if_true]
    omega
  · simp only [hz, if_false]
    exact hl3

theorem indexedTriples_map_val (records : List Record) :
    (indexedTriples records).map (fun t => t.2.2)
      = records.map (omitKeys ["objectID"]) := by
  simp only [indexedTriples, List.map_map]
  exact List.enum_map_snd _

theorem indexedTriples_map_idx (records : List Record) :
    (indexedTriples records).map (fun t => t.2.1)
      = List.range (records.map (omitKeys ["objectID"])).length := by
  simp only [indexedTriples, List.map_map]
  exact List.enum_map_fst _

theorem sortedTriples_perm (records : List Record) :
    (sortedTriples records).Perm (indexedTriples records) :=
  sortWith_perm _ _

theorem normalize_perm_omit (records : List Record) :
    (normalize records).Perm (records.map (omitKeys ["objectID"])) := by
  have hmap := List.Perm.map (fun t : SortTriple => t.2.2) (sortedTriples_perm records)
  rwa [indexedTriples_map_val] at hmap

theorem sortedTriples_pairwise {records : List Record} (h : SortKeysOk records) :
    (sortedTriples records).Pairwise (fun t u => compareMultiple t u ≤ 0) :=
  sortWith_pairwise compareMultiple (indexedTriples records)
    (compareMultiple_total_of h) (compareMultiple_trans_of h)

theorem sortedTriples_idx_nodup (records : List Record) :
    ((sortedTriples records).map (fun t => t.2.1)).Nodup := by
  have hperm := List.Perm.map (fun t : SortTriple => t.2.1) (sortedTriples_perm records)
  rw [indexedTriples_map_idx] at hperm
  exact hperm.nodup_iff.mpr (List.nodup_range _)

theorem sortedTriples_pairwise_strict {records : List Record} (h : SortKeysOk records) :
    (sortedTriples records).Pairwise
      (fun t u => lexCmp t.1 u.1 < 0 ∨ (lexCmp t.1 u.1 = 0 ∧ t.2.1 < u.2.1)) := by
  have h1 := sortedTriples_pairwise h
  have h2 : (sortedTriples records).Pairwise (fun t u => t.2.1 ≠ u.2.1) := by
    have := sortedTriples_idx_nodup records
    rw [List.Nodup] at this
    exact List.pairwise_map.mp this
  refine (h1.and h2).imp ?_
  intro t u ⟨hle, hne⟩
  rw [compareMultiple_def] at hle
  by_cases hz : lexCmp t.1 u.1 = 0
  · simp only [hz, if_true] at hle
    right
    exact ⟨hz, by omega⟩
  · simp only [hz, if_false] at hle
    left
    omega

theorem normalize_pairwise {records : List Record} (h : SortKeysOk records) :
    (normalize records).Pairwise
      (fun a b => lexCmp (criteriaOf a) (criteriaOf b) ≤ 0) := by
  have hsorted := sortedTriples_pairwise h
  have hperm := sortedTriples_perm records
  apply List.pairwise_map.mpr
  refine hsorted.imp_of_mem ?_
  intro t u ht hu hle
  have hct := (mem_indexedTriples (hperm.mem_iff.mp ht)).1
  have hcu := (mem_indexedTriples (hperm.mem_iff.mp hu)).1
  rw [compareMultiple_def] at hle
  by_cases hz : lexCmp t.1 u.1 = 0
  · rw [← hct, ← hcu, hz]
  · simp only [hz, if_false] at hle
    rw [← hct, ← hcu]
    exact hle

theorem eq_of_perm_of_pairwise {α : Type} {le : α → α → Prop} :
    ∀ {l1 l2 : List α}, l1.Perm l2 → l1.Pairwise le → l2.Pairwise le →
      (∀ a ∈ l1, ∀ b ∈ l1, le a b → le b a → a = b) → l1 = l2 := by
  intro l1
  induction l1 with
  | nil =>
    intro l2 hp _ _ _
    exact (hp.symm.eq_nil).symm
  | cons a t1 ih =>
    intro l2 hp hp1 hp2 hanti
    cases l2 with
    | nil => exact absurd hp.eq_nil (by simp)
    | cons b t2 =>
      rcases List.pairwise_cons.mp hp1 with ⟨ha1, ht1⟩
      rcases List.pairwise_cons.mp hp2 with ⟨hb2, ht2⟩
      by_cases hab : a = b
      · subst hab
        have hpt := hp.cons_inv
        have heq := ih hpt ht1 ht2 ?_
        · rw [heq]
        · intro x hx y hy hxy hyx
          exact hanti x (List.mem_cons_of_mem _ hx) y (List.mem_cons_of_mem _ hy) hxy hyx
      · exfalso
        have hbmem : b ∈ a :: t1 := hp.mem_iff.mpr (List.mem_cons_self _ _)
        have hamem : a ∈ b :: t2 := hp.mem_iff.mp (List.mem_cons_self _ _)
        have hbt1 : b ∈ t1 := by
          rcases List.mem_cons.mp hbmem with h0 | h0
          · exact absurd h0.symm hab
          · exact h0
        have hat2 : a ∈ t2 := by
          rcases List.mem_cons.mp hamem with h0 | h0
          · exact absurd h0 hab
          · exact h0
        have hle1 : le a b := ha1 b hbt1
        have hle2 : le b a := hb2 a hat2
        exact hab (hanti a (List.mem_cons_self _ _) b (List.mem_cons_of_mem _ hbt1) hle1 hle2)

theorem lookup_omitKeys_mem (keys : List String) (r : Record) (k : String)
    (hk : keys.contains k = true) :
    (omitKeys keys r).lookup k = none := by
  induction r with
  | nil => rfl
  | cons kv t ih =>
    cases kv with
    | mk k1 v1 =>
      show (List.filter _ ((k1, v1) :: t)).lookup k = _
      rw [List.filter_cons]
      rcases hdrop : keys.contains k1 with _ | _
      · have hne : (k == k1) = false := by
          rcases hke : k == k1 with _ | _
          · rfl
          · have hkk : k = k1 := by simpa using hke
            rw [hkk] at hk
            rw [hk] at hdrop
            exact Bool.noConfusion hdrop
        simp only [hdrop, Bool.not_false, if_true, List.lookup, hne]
        exact ih
      · simp only [hdrop, Bool.not_true, Bool.false_eq_true, if_false]
        exact ih

/-- Claim C2, counterexample: two records that agree on every sort key (none
of the nine key paths is present in either) but differ in content.  The sort
is stable, so the two content-identical permutations of this record set
normalize to different output sequences, refuting the claim that
independently-ordered but content-identical inputs always yield identical
outputs. -/
theorem C2_perm_counterexample :
    ([[("a", JSValue.num 1)], [("a", JSValue.num 2)]] : List Record).Perm
        [[("a", JSValue.num 2)], [("a", JSValue.num 1)]] ∧
      normalize [[("a", JSValue.num 1)], [("a", JSValue.num 2)]]
        ≠ normalize [[("a", JSValue.num 2)], [("a", JSValue.num 1)]] := by
  constructor
  · exact List.Perm.swap _ _ _
  · intro hcontra
    have h1 : normalize [[("a", JSValue.num 1)], [("a", JSValue.num 2)]]
        = [[("a", JSValue.num 1)], [("a", JSValue.num 2)]] := rfl
    have h2 : normalize [[("a", JSValue.num 2)], [("a", JSValue.num 1)]]
        = [[("a", JSValue.num 2)], [("a", JSValue.num 1)]] := rfl
    rw [h1, h2] at hcontra
    have h12 : (1 : Int) = 2 := by
      have hh := List.head_eq_of_cons_eq hcontra
      have hh2 := List.head_eq_of_cons_eq hh
      exact JSValue.num.inj (congrArg Prod.snd hh2)
    exact absurd h12 (by decide)

/-- Claim C2 (amended): normalization is permutation-invariant provided the
records have per-path type-homogeneous sort keys and no two distinct
(identifier-stripped) records share the full key tuple.  The counterexample
shows the distinctness condition is necessary: the sort is stable, so records
with tied key tuples keep their arrival order. -/
theorem C2_normalize_perm_invariant (l1 l2 : List Record)
    (hperm : l1.Perm l2) (hkeys : SortKeysOk l1)
    (hdistinct : ∀ a ∈ l1.map (omitKeys ["objectID"]),
      ∀ b ∈ l1.map (omitKeys ["objectID"]),
      lexCmp (criteriaOf a) (criteriaOf b) = 0 → a = b) :
    normalize l1 = normalize l2 := by
  have hkeys2 : SortKeysOk l2 := by
    intro p hp
    rcases hkeys p hp with hs | hn
    · exact Or.inl (fun r hr => hs r (hperm.mem_iff.mpr hr))
    · exact Or.inr (fun r hr => hn r (hperm.mem_iff.mpr hr))
  have hpomit : (l1.map (omitKeys ["objectID"])).Perm (l2.map (omitKeys ["objectID"])) :=
    hperm.map _
  have hp12 : (normalize l1).Perm (normalize l2) :=
    (normalize_perm_omit l1).trans (hpomit.trans (normalize_perm_omit l2).symm)
  refine eq_of_perm_of_pairwise hp12 (normalize_pairwise hkeys) (normalize_pairwise hkeys2) ?_
  intro a ha b hb hab hba
  have ha2 : a ∈ l1.map (omitKeys ["objectID"]) := (normalize_perm_omit l1).mem_iff.mp ha
  have hb2 : b ∈ l1.map (omitKeys ["objectID"]) := (normalize_perm_omit l1).mem_iff.mp hb
  have hneg : lexCmp (criteriaOf b) (criteriaOf a) = -(lexCmp (criteriaOf a) (criteriaOf b)) := by
    rw [criteriaOf_eq_map, criteriaOf_eq_map]
    exact lexCmp_neg_of sortPaths a b (class2_of_sortKeysOk hkeys ha2 hb2)
  have hz : lexCmp (criteriaOf a) (criteriaOf b) = 0 := by omega
  exact hdistinct a ha2 b hb2 hz

/-- Claim C2, witness: two reversed record lists with distinct string keys
normalize to the same sequence. -/
theorem C2_normalize_perm_invariant_witness :
    normalize [[("url", JSValue.str "b")], [("url", JSValue.str "a")]]
      = normalize [[("url", JSValue.str "a")], [("url", JSValue.str "b")]] := by
  refine C2_normalize_perm_invariant _ _ (List.Perm.swap _ _ _) (by decide) ?_
  intro a ha b hb hz
  have ha2 : a = [("url", JSValue.str "b")] ∨ a = [("url", JSValue.str "a")] := by
    simpa using ha
  have hb2 : b = [("url", JSValue.str "b")] ∨ b = [("url", JSValue.str "a")] := by
    simpa using hb
  rcases ha2 with rfl | rfl <;> rcases hb2 with rfl | rfl
  · rfl
  · rw [show lexCmp (criteriaOf [("url", JSValue.str "b")])
        (criteriaOf [("url", JSValue.str "a")]) = 1 from rfl] at hz
    exact absurd hz (by decide)
  · rw [show lexCmp (criteriaOf [("url", JSValue.str "a")])
        (criteriaOf [("url", JSValue.str "b")]) = -1 from rfl] at hz
    exact absurd hz (by decide)
  · rfl

/-- Claim C3, counterexample: lodash sorts a missing (undefined) key field
AFTER every present value, not before it as the claim states.  The record
with `url` present ends up first regardless of arrival order; the claim
instead requires the record missing `url` to sort before it. -/
theorem C3_missing_counterexample :
    normalize [[], [("url", JSValue.str "a")]]
        = [[("url", JSValue.str "a")], ([] : Record)] ∧
      normalize [[("url", JSValue.str "a")], []]
        = [[("url", JSValue.str "a")], ([] : Record)] :=
  ⟨rfl, rfl⟩

/-- Claim C3 (amended): for per-path type-homogeneous inputs the normalizer
sort is ascending on the key tuple (url, hierarchy.lvl0 … lvl6,
weight.position) in the lodash comparison order — in which a missing
(undefined) key field sorts AFTER every present value — it is stable, and
records with fully-equal key tuples keep their original arrival order: the
sorted units are a permutation of the arrival-indexed units and are pairwise
ordered by (key tuple, arrival index). -/
theorem C3_sort_spec (records : List Record) (h : SortKeysOk records) :
    normalize records = (sortedTriples records).map (fun t => t.2.2) ∧
    (sortedTriples records).Perm (indexedTriples records) ∧
    (sortedTriples records).Pairwise
      (fun t u => lexCmp t.1 u.1 < 0 ∨ (lexCmp t.1 u.1 = 0 ∧ t.2.1 < u.2.1)) ∧
    (∀ v : JSValue, v ≠ JSValue.undefined →
      compareAscending v JSValue.undefined = -1 ∧ compareAscending JSValue.undefined v = 1) :=
  ⟨rfl, sortedTriples_perm records, sortedTriples_pairwise_strict h,
   fun v hv => ⟨compareAscending_undefined_right v hv, compareAscending_undefined_left v hv⟩⟩

/-- Claim C3, witness: the sort specification instantiated on a concrete
three-record collection (one record missing its url). -/
theorem C3_sort_spec_witness :
    normalize [[("url", JSValue.str "b")], [], [("url", JSValue.str "a")]]
        = (sortedTriples [[("url", JSValue.str "b")], [], [("url", JSValue.str "a")]]).map
            (fun t => t.2.2) ∧
      (sortedTriples [[("url", JSValue.str "b")], [], [("url", JSValue.str "a")]]).Perm
        (indexedTriples [[("url", JSValue.str "b")], [], [("url", JSValue.str "a")]]) ∧
      (sortedTriples [[("url", JSValue.str "b")], [], [("url", JSValue.str "a")]]).Pairwise
        (fun t u => lexCmp t.1 u.1 < 0 ∨ (lexCmp t.1 u.1 = 0 ∧ t.2.1 < u.2.1)) ∧
      (∀ v : JSValue, v ≠ JSValue.undefined →
        compareAscending v JSValue.undefined = -1 ∧ compareAscending JSValue.undefined v = 1) :=
  C3_sort_spec [[("url", JSValue.str "b")], [], [("url", JSValue.str "a")]] (by decide)

/-- Claim C8: no record in the normalizer's output retains the `objectID`
field; each output record is some input record with exactly that field
removed, every other field reading unchanged. -/
theorem C8_normalize_erases_objectID (records : List Record) (r : Record)
    (hr : r ∈ normalize records) :
    r.lookup "objectID" = none ∧
      ∃ r0 ∈ records, r = omitKeys ["objectID"] r0 ∧
        ∀ k : String, k ≠ "objectID" → r.lookup k = r0.lookup k := by
  have hmem : r ∈ records.map (omitKeys ["objectID"]) :=
    (normalize_perm_omit records).mem_iff.mp hr
  rcases List.mem_map.mp hmem with ⟨r0, hr0, rfl⟩
  refine ⟨lookup_omitKeys_mem _ _ _ (by decide), r0, hr0, rfl, ?_⟩
  intro k hk
  apply lookup_omitKeys
  rcases hke : k == "objectID" with _ | _
  · show List.elem k ["objectID"] = false
    simp [List.elem, hke]
  · exact absurd (by simpa using hke) hk

/-- Claim C8, witness: a record whose objectID is removed while its other
field is kept. -/
theorem C8_normalize_erases_objectID_witness :
    ([("a", JSValue.num 1)] : Record).lookup "objectID" = none ∧
      ∃ r0 ∈ ([[("objectID", JSValue.str "x"), ("a", JSValue.num 1)]] : List Record),
        ([("a", JSValue.num 1)] : Record) = omitKeys ["objectID"] r0 ∧
        ∀ k : String, k ≠ "objectID" →
          ([("a", JSValue.num 1)] : Record).lookup k = r0.lookup k :=
  C8_normalize_erases_objectID [[("objectID", JSValue.str "x"), ("a", JSValue.num 1)]]
    [("a", JSValue.num 1)]
    (by rw [show normalize [[("objectID", JSValue.str "x"), ("a", JSValue.num 1)]]
          = [[("a", JSValue.num 1)]] from rfl]
        exact List.mem_singleton_self _)

/-! ### Index list fetcher (`downloadIndexList`, src/index.js lines 44-68) -/

/-- One row of the remote `listIndexes()` response (the fields the tool
reads). -/
structure RawIndex where
  name : String
  entries : Int
  dataSize : Int
  fileSize : Int
  updatedAt : String
deriving DecidableEq

/-- One persisted index summary, as built on src/index.js lines 54-60. -/
structure IndexSummary where
  name : String
  recordCount : Int
  dataSize : Int
  fileSize : Int
  lastUpdate : String
deriving DecidableEq

/-- Contents of one file of the tool's `dist/` tree: a JSON record dump, a
JSON index list, or plain text (the error markers written by
`firost.write`). -/
inductive Blob where
  | json (records : List Record)
  | idx (summaries : List IndexSummary)
  | text (contents : String)

/-- The on-disk state: an association list from file path to contents. -/
abbrev FS := List (String × Blob)

/-- Overwrite-or-create a key in an association list (the semantics of
writing a file at a path). -/
def upsert {α : Type} : List (String × α) → String → α → List (String × α)
  | [], p, b => [(p, b)]
  | (q, v) :: t, p, b => if q == p then (q, b) :: t else (q, v) :: upsert t p b

theorem lookup_upsert_self {α : Type} (l : List (String × α)) (p : String) (b : α) :
    (upsert l p b).lookup p = some b := by
  induction l with
  | nil => simp [upsert, List.lookup]
  | cons qv t ih =>
    cases qv with
    | mk q v =>
      simp only [upsert]
      rcases hq : q == p with _ | _
      · simp only [Bool.false_eq_true, if_false, List.lookup]
        have : (p == q) = false := by
          rcases hpq : p == q with _ | _
          · rfl
          · have : p = q := by simpa using hpq
            rw [this, beq_self_eq_true] at hq
            exact Bool.noConfusion hq
        rw [this]
        exact ih
      · have : q = p := by simpa using hq
        subst this
        simp [List.lookup]

theorem lookup_upsert_ne {α : Type} (l : List (String × α)) (p k : String) (b : α)
    (hne : k ≠ p) :
    (upsert l p b).lookup k = l.lookup k := by
  have hkp : (k == p) = false := by
    rcases h : k == p with _ | _
    · rfl
    · exact absurd (by simpa using h) hne
  induction l with
  | nil => simp [upsert, List.lookup, hkp]
  | cons qv t ih =>
    cases qv with
    | mk q v =>
      simp only [upsert]
      rcases hq : q == p with _ | _
      · simp only [Bool.false_eq_true, if_false, List.lookup]
        rcases hkq : k == q with _ | _
        · exact ih
        · rfl
      · have : q = p := by simpa using hq
        subst this
        simp only [if_true, List.lookup, hkp]

/-- Suffix test, the model of lodash `_.endsWith`. -/
def endsWithStr (s suf : String) : Bool := List.isSuffixOf suf.data s.data

/-- The cache path of one app's index list (src/index.js line 45). -/
def appFilePath (appName : String) : String := "./dist/apps/" ++ appName ++ ".json"

/-- The index list built from a fresh `listIndexes()` response: map each raw
entry to an `IndexSummary` and reject names ending in the reserved temp
suffix (src/index.js lines 52-62). -/
def fetchedIndexData (listIndexes : String → List RawIndex) (appName : String) :
    List IndexSummary :=
  ((listIndexes appName).map
      (fun i => ⟨i.name, i.entries, i.dataSize, i.fileSize, i.updatedAt⟩)).filter
    (fun i => !(endsWithStr i.name "_tmp"))

/-- State threaded through the fetcher: the disk plus a count of remote
`listIndexes` calls performed (to express the caching claim). -/
structure AppState where
  fs : FS
  listCalls : Nat

/-- `downloadIndexList(appName)` (src/index.js lines 44-68): return the
cached artifact if the cache file exists, else call the remote service,
build the filtered summary list, persist it and return it.  The remote
service is the oracle `listIndexes`; reading a non-JSON or non-list artifact
would be a deserialization failure (not reached in the modelled flows, where
the apps/ path only ever holds index lists). -/
def downloadIndexList (listIndexes : String → List RawIndex) (appName : String)
    (st : AppState) : Except String (List IndexSummary) × AppState :=
  match st.fs.lookup (appFilePath appName) with
  | some (Blob.idx l) => (Except.ok l, st)
  | some _ => (Except.error "cache deserialization failure", st)
  | none =>
    let indexData := fetchedIndexData listIndexes appName
    (Except.ok indexData,
      ⟨upsert st.fs (appFilePath appName) (Blob.idx indexData), st.listCalls + 1⟩)

theorem downloadIndexList_fresh (listIndexes : String → List RawIndex)
    (appName : String) (st0 : AppState)
    (h : st0.fs.lookup (appFilePath appName) = none) :
    downloadIndexList listIndexes appName st0
        = (Except.ok (fetchedIndexData listIndexes appName),
           ⟨upsert st0.fs (appFilePath appName)
              (Blob.idx (fetchedIndexData listIndexes appName)),
            st0.listCalls + 1⟩) := by
  simp [downloadIndexList, h]

theorem downloadIndexList_second (listIndexes : String → List RawIndex)
    (appName : String) (st0 : AppState)
    (h : st0.fs.lookup (appFilePath appName) = none) :
    downloadIndexList listIndexes appName (downloadIndexList listIndexes appName st0).2
        = (Except.ok (fetchedIndexData listIndexes appName),
           (downloadIndexList listIndexes appName st0).2) := by
  rw [downloadIndexList_fresh listIndexes appName st0 h]
  simp [downloadIndexList, lookup_upsert_self]

/-- Claim C5: starting from a state with no cached index list for the
account, calling `downloadIndexList` twice performs exactly one remote
`listIndexes` call in total (the call counter rises by one on the first call
and the second call leaves the whole state unchanged), and the second call
returns exactly the value the first call persisted. -/
theorem C5_idempotent_cache (listIndexes : String → List RawIndex)
    (appName : String) (st0 : AppState)
    (h : st0.fs.lookup (appFilePath appName) = none) :
    (downloadIndexList listIndexes appName st0).2.listCalls = st0.listCalls + 1 ∧
    (downloadIndexList listIndexes appName
        (downloadIndexList listIndexes appName st0).2).2
      = (downloadIndexList listIndexes appName st0).2 ∧
    (downloadIndexList listIndexes appName st0).2.fs.lookup (appFilePath appName)
      = some (Blob.idx (fetchedIndexData listIndexes appName)) ∧
    (downloadIndexList listIndexes appName st0).1
      = Except.ok (fetchedIndexData listIndexes appName) ∧
    (downloadIndexList listIndexes appName
        (downloadIndexList listIndexes appName st0).2).1
      = (downloadIndexList listIndexes appName st0).1 := by
  have h1 := downloadIndexList_fresh listIndexes appName st0 h
  have h2 := downloadIndexList_second listIndexes appName st0 h
  refine ⟨?_, ?_, ?_, ?_, ?_⟩
  · rw [h1]
  · rw [h2]
  · rw [h1]
    exact lookup_upsert_self _ _ _
  · rw [h1]
  · rw [h2, h1]

/-- Claim C5, witness: a concrete remote response, the account name mesos
and an empty initial disk. -/
theorem C5_idempotent_cache_witness :
    (downloadIndexList (fun _ => [⟨"idx", 1, 2, 3, "t"⟩]) "mesos" ⟨[], 0⟩).2.listCalls
        = 0 + 1 ∧
    (downloadIndexList (fun _ => [⟨"idx", 1, 2, 3, "t"⟩]) "mesos"
        (downloadIndexList (fun _ => [⟨"idx", 1, 2, 3, "t"⟩]) "mesos" ⟨[], 0⟩).2).2
      = (downloadIndexList (fun _ => [⟨"idx", 1, 2, 3, "t"⟩]) "mesos" ⟨[], 0⟩).2 ∧
    (downloadIndexList (fun _ => [⟨"idx", 1, 2, 3, "t"⟩]) "mesos" ⟨[], 0⟩).2.fs.lookup
        (appFilePath "mesos")
      = some (Blob.idx (fetchedIndexData (fun _ => [⟨"idx", 1, 2, 3, "t"⟩]) "mesos")) ∧
    (downloadIndexList (fun _ => [⟨"idx", 1, 2, 3, "t"⟩]) "mesos" ⟨[], 0⟩).1
      = Except.ok (fetchedIndexData (fun _ => [⟨"idx", 1, 2, 3, "t"⟩]) "mesos") ∧
    (downloadIndexList (fun _ => [⟨"idx", 1, 2, 3, "t"⟩]) "mesos"
        (downloadIndexList (fun _ => [⟨"idx", 1, 2, 3, "t"⟩]) "mesos" ⟨[], 0⟩).2).1
      = (downloadIndexList (fun _ => [⟨"idx", 1, 2, 3, "t"⟩]) "mesos" ⟨[], 0⟩).1 :=
  C5_idempotent_cache (fun _ => [⟨"idx", 1, 2, 3, "t"⟩]) "mesos" ⟨[], 0⟩ rfl

/-- Claim C7: starting from a state with no cached index list, neither the
fresh-fetch result nor the result of a subsequent cache-read contains an
index summary whose name ends with the reserved temporary suffix. -/
theorem C7_no_tmp_indices (listIndexes : String → List RawIndex)
    (appName : String) (st0 : AppState)
    (h : st0.fs.lookup (appFilePath appName) = none) :
    (∀ l, (downloadIndexList listIndexes appName st0).1 = Except.ok l →
      ∀ i ∈ l, endsWithStr i.name "_tmp" = false) ∧
    (∀ l, (downloadIndexList listIndexes appName
        (downloadIndexList listIndexes appName st0).2).1 = Except.ok l →
      ∀ i ∈ l, endsWithStr i.name "_tmp" = false) := by
  have hfetched : ∀ i ∈ fetchedIndexData listIndexes appName,
      endsWithStr i.name "_tmp" = false := by
    intro i hi
    have hp := List.of_mem_filter hi
    rcases he : endsWithStr i.name "_tmp" with _ | _
    · rfl
    · rw [he] at hp
      exact Bool.noConfusion hp
  constructor
  · intro l hl
    rw [downloadIndexList_fresh listIndexes appName st0 h] at hl
    have : l = fetchedIndexData listIndexes appName := by
      injection hl with h0
      exact h0.symm
    subst this
    exact hfetched
  · intro l hl
    rw [downloadIndexList_second listIndexes appName st0 h] at hl
    have : l = fetchedIndexData listIndexes appName := by
      injection hl with h0
      exact h0.symm
    subst this
    exact hfetched

/-- Claim C7, witness: a remote response containing a temp index; neither
returned list contains it. -/
theorem C7_no_tmp_indices_witness :
    (∀ l, (downloadIndexList (fun _ => [⟨"a", 1, 2, 3, "t"⟩, ⟨"b_tmp", 1, 2, 3, "t"⟩])
        "kubernetes" ⟨[], 0⟩).1 = Except.ok l →
      ∀ i ∈ l, endsWithStr i.name "_tmp" = false) ∧
    (∀ l, (downloadIndexList (fun _ => [⟨"a", 1, 2, 3, "t"⟩, ⟨"b_tmp", 1, 2, 3, "t"⟩])
        "kubernetes"
        (downloadIndexList (fun _ => [⟨"a", 1, 2, 3, "t"⟩, ⟨"b_tmp", 1, 2, 3, "t"⟩])
          "kubernetes" ⟨[], 0⟩).2).1 = Except.ok l →
      ∀ i ∈ l, endsWithStr i.name "_tmp" = false) :=
  C7_no_tmp_indices (fun _ => [⟨"a", 1, 2, 3, "t"⟩, ⟨"b_tmp", 1, 2, 3, "t"⟩])
    "kubernetes" ⟨[], 0⟩ rfl

/-! ### Divergence detector (`getIndicesWithDifferences`, src/index.js lines 121-148) -/

/-- The `convertList` helper (src/index.js lines 124-133): `_.transform` an
index list into a JavaScript object mapping name to dataSize.  Object keys
keep first-insertion order; assigning an existing key overwrites its value. -/
def convertList (list : List IndexSummary) : List (String × Int) :=
  list.foldl (fun result index => upsert result index.name index.dataSize) []

/-- lodash `_.compact` on the mapped name-or-null list: removes every falsey
value, i.e. both `null` and the empty string. -/
def jsCompactStrings (l : List (Option String)) : List String :=
  (l.filterMap id).filter (fun s => !(s == ""))

/-- The pure core of `getIndicesWithDifferences` (src/index.js lines
135-147), applied to the two fetched index lists: for every name in the
mesos mapping, keep it when the kubernetes mapping's value for that name is
not strictly equal to the mesos size (an absent name reads as `undefined`,
which differs from every number), then compact. -/
def getIndicesWithDifferencesPure (mesosIndices kubernetesIndices : List IndexSummary) :
    List String :=
  let mesosList := convertList mesosIndices
  let kubernetesList := convertList kubernetesIndices
  jsCompactStrings (mesosList.map (fun p =>
    if kubernetesList.lookup p.1 == some p.2 then none else some p.1))

/-- `getIndicesWithDifferences()` (src/index.js lines 121-148): fetch both
apps' index lists (through the cache) and compare them. -/
def getIndicesWithDifferences (listIndexes : String → List RawIndex) (st : AppState) :
    Except String (List String) × AppState :=
  match downloadIndexList listIndexes "mesos" st with
  | (Except.error e, st1) => (Except.error e, st1)
  | (Except.ok mesosIndices, st1) =>
    match downloadIndexList listIndexes "kubernetes" st1 with
    | (Except.error e, st2) => (Except.error e, st2)
    | (Except.ok kubernetesIndices, st2) =>
      (Except.ok (getIndicesWithDifferencesPure mesosIndices kubernetesIndices), st2)

theorem mem_upsert_key {α : Type} {acc : List (String × α)} {k : String} {v : α}
    {p : String × α} (hp : p ∈ upsert acc k v) :
    p.1 = k ∨ p.1 ∈ acc.map Prod.fst := by
  induction acc with
  | nil =>
    simp only [upsert, List.mem_singleton] at hp
    subst hp
    exact Or.inl rfl
  | cons qv t ih =>
    cases qv with
    | mk q w =>
      simp only [upsert] at hp
      rcases hq : q == k with _ | _
      · rw [hq] at hp
        simp only [Bool.false_eq_true, if_false, List.mem_cons] at hp
        rcases hp with rfl | hp
        · exact Or.inr (by simp)
        · rcases ih hp with h0 | h0
          · exact Or.inl h0
          · exact Or.inr (by simp [h0])
      · rw [hq] at hp
        simp only [if_true, List.mem_cons] at hp
        rcases hp with rfl | hp
        · exact Or.inl (by simpa using hq)
        · refine Or.inr ?_
          rw [List.map_cons]
          exact List.mem_cons_of_mem _ (List.mem_map_of_mem Prod.fst hp)

theorem mem_convertList_aux (l : List IndexSummary) (acc : List (String × Int))
    (p : String × Int)
    (hp : p ∈ l.foldl (fun result index => upsert result index.name index.dataSize) acc) :
    p.1 ∈ acc.map Prod.fst ∨ p.1 ∈ l.map IndexSummary.name := by
  induction l generalizing acc with
  | nil => exact Or.inl (List.mem_map_of_mem Prod.fst hp)
  | cons i t ih =>
    simp only [List.foldl_cons] at hp
    rcases ih (upsert acc i.name i.dataSize) hp with h0 | h0
    · rcases List.mem_map.mp h0 with ⟨q, hq, hq1⟩
      rcases mem_upsert_key hq with h1 | h1
      · exact Or.inr (by simp [← hq1, h1])
      · exact Or.inl (hq1 ▸ h1)
    · exact Or.inr (by simp [h0])

theorem mem_convertList_name {l : List IndexSummary} {p : String × Int}
    (hp : p ∈ convertList l) : p.1 ∈ l.map IndexSummary.name := by
  rcases mem_convertList_aux l [] p hp with h0 | h0
  · simp at h0
  · exact h0

theorem contains_false_not_mem {l : List String} {a : String}
    (h : l.contains a = false) : a ∉ l := by
  induction l with
  | nil => simp
  | cons b t ih =>
    intro hmem
    rcases List.mem_cons.mp hmem with rfl | hmem2
    · have : (a == a) = true := beq_self_eq_true a
      simp only [List.contains, List.elem, this] at h
      exact Bool.noConfusion h
    · rcases hab : a == b with _ | _
      · simp only [List.contains, List.elem, hab] at h
        exact ih h hmem2
      · simp only [List.contains, List.elem, hab] at h
        exact Bool.noConfusion h

theorem upsert_map_fst {α : Type} (acc : List (String × α)) (k : String) (v : α) :
    (upsert acc k v).map Prod.fst
      = if (acc.map Prod.fst).contains k = true then acc.map Prod.fst
        else acc.map Prod.fst ++ [k] := by
  induction acc with
  | nil => simp [upsert, List.contains, List.elem]
  | cons qv t ih =>
    cases qv with
    | mk q w =>
      simp only [upsert]
      rcases hq : q == k with _ | _
      · have hkq : (k == q) = false := by
          rcases h0 : k == q with _ | _
          · rfl
          · have : k = q := by simpa using h0
            rw [this, beq_self_eq_true] at hq
            exact Bool.noConfusion hq
        simp only [Bool.false_eq_true, if_false, List.map_cons]
        rw [ih]
        simp only [List.contains, List.elem, hkq]
        split <;> rfl
      · have : q = k := by simpa using hq
        subst this
        simp only [if_true, List.map_cons, List.contains, List.elem, beq_self_eq_true]

theorem upsert_nodup_keys {α : Type} (acc : List (String × α)) (k : String) (v : α)
    (h : (acc.map Prod.fst).Nodup) : ((upsert acc k v).map Prod.fst).Nodup := by
  rw [upsert_map_fst]
  rcases hc : (acc.map Prod.fst).contains k with _ | _
  · simp only [Bool.false_eq_true, if_false]
    refine List.Nodup.append h (List.nodup_singleton k) ?_
    intro x hx hk
    rcases List.mem_singleton.mp hk with rfl
    exact contains_false_not_mem hc hx
  · simp only [if_true]
    exact h

theorem convertList_nodup_keys_aux (l : List IndexSummary) (acc : List (String × Int))
    (h : (acc.map Prod.fst).Nodup) :
    ((l.foldl (fun result index => upsert result index.name index.dataSize) acc).map
      Prod.fst).Nodup := by
  induction l generalizing acc with
  | nil => exact h
  | cons i t ih =>
    simp only [List.foldl_cons]
    exact ih _ (upsert_nodup_keys acc i.name i.dataSize h)

theorem convertList_nodup_keys (l : List IndexSummary) :
    ((convertList l).map Prod.fst).Nodup :=
  convertList_nodup_keys_aux l [] (by simp)

theorem lookup_eq_some_iff_mem {α : Type} {l : List (String × α)}
    (h : (l.map Prod.fst).Nodup) (k : String) (v : α) :
    l.lookup k = some v ↔ (k, v) ∈ l := by
  induction l with
  | nil => simp [List.lookup]
  | cons qv t ih =>
    cases qv with
    | mk q w =>
      rw [List.map_cons, List.nodup_cons] at h
      rcases h with ⟨hq, ht⟩
      rcases hkq : k == q with _ | _
      · have hne : k ≠ q := by
          intro h0
          rw [h0, beq_self_eq_true] at hkq
          exact Bool.noConfusion hkq
        simp only [List.lookup, hkq, List.mem_cons]
        rw [ih ht]
        constructor
        · exact Or.inr
        · rintro (h0 | h0)
          · exact absurd (congrArg Prod.fst h0) hne
          · exact h0
      · have heq : k = q := by simpa using hkq
        subst heq
        simp only [List.lookup, beq_self_eq_true, List.mem_cons]
        constructor
        · intro h0
          exact Or.inl (by rw [Option.some_inj.mp h0])
        · rintro (h0 | h0)
          · rw [(Prod.mk.injEq _ _ _ _).mp h0 |>.2]
          · exact absurd (List.mem_map_of_mem Prod.fst h0) hq

theorem filterMap_if_none {α : Type} (c : (String × α) → Bool) (l : List (String × α)) :
    (l.map (fun p => if c p then none else some p.1)).filterMap id
      = (l.filter (fun p => !(c p))).map Prod.fst := by
  induction l with
  | nil => rfl
  | cons p t ih =>
    simp only [List.map_cons, List.filterMap_cons, List.filter_cons]
    rcases hc : c p with _ | _
    · simp [hc, ih]
    · simp [hc, ih]

/-- Claim C4, counterexample: an index named by the empty string whose
dataSize differs between the accounts (it is absent on the kubernetes side)
is present in the mesos mapping, yet the result is empty: `_.compact` drops
the falsey empty-string name, so the claimed "exactly the names whose
dataSize differs" fails for this input. -/
theorem C4_empty_name_counterexample :
    getIndicesWithDifferencesPure [⟨"", 0, 5, 0, ""⟩] [] = [] ∧
    (convertList [⟨"", 0, 5, 0, ""⟩]).lookup "" = some 5 ∧
    (convertList ([] : List IndexSummary)).lookup "" = none :=
  ⟨rfl, rfl, rfl⟩

/-- Claim C4 (amended): for index lists whose names are all nonempty,
`getIndicesWithDifferences` returns exactly the names of account A's (mesos)
name-to-dataSize mapping whose value differs from account B's (kubernetes)
value for that name, a name absent on the B side counting as differing;
names present only in B are never included.  (An index named by the empty
string would additionally be dropped by the compact step.) -/
theorem C4_divergence_spec (A B : List IndexSummary)
    (hname : ∀ s ∈ A, s.name ≠ "") :
    getIndicesWithDifferencesPure A B
        = ((convertList A).filter
            (fun p => !((convertList B).lookup p.1 == some p.2))).map Prod.fst ∧
      ∀ n : String, n ∈ getIndicesWithDifferencesPure A B ↔
        ∃ sz : Int, (convertList A).lookup n = some sz ∧
          (convertList B).lookup n ≠ some sz := by
  have hkeys : ∀ p : String × Int, p ∈ convertList A → p.1 ≠ "" := by
    intro p hp
    have hmem := mem_convertList_name hp
    rcases List.mem_map.mp hmem with ⟨s, hs, hs1⟩
    rw [← hs1]
    exact hname s hs
  have hfirst : getIndicesWithDifferencesPure A B
      = ((convertList A).filter
          (fun p => !((convertList B).lookup p.1 == some p.2))).map Prod.fst := by
    show jsCompactStrings _ = _
    rw [jsCompactStrings, filterMap_if_none]
    apply List.filter_eq_self.mpr
    intro n hn
    rcases List.mem_map.mp hn with ⟨p, hpf, hp1⟩
    have hne : n ≠ "" := hp1 ▸ hkeys p (List.mem_filter.mp hpf).1
    rcases h0 : n == "" with _ | _
    · rfl
    · exact absurd (by simpa using h0) hne
  refine ⟨hfirst, ?_⟩
  intro n
  rw [hfirst]
  constructor
  · intro hn
    rcases List.mem_map.mp hn with ⟨p, hpf, hp1⟩
    rcases List.mem_filter.mp hpf with ⟨hpA, hpc⟩
    refine ⟨p.2, ?_, ?_⟩
    · rw [← hp1]
      exact (lookup_eq_some_iff_mem (convertList_nodup_keys A) p.1 p.2).mpr hpA
    · rw [← hp1]
      have : ((convertList B).lookup p.1 == some p.2) = false := by
        rcases h0 : (convertList B).lookup p.1 == some p.2 with _ | _
        · rfl
        · rw [h0] at hpc
          exact Bool.noConfusion hpc
      exact ne_of_beq_false this
  · rintro ⟨sz, hA, hB⟩
    have hmem : (n, sz) ∈ convertList A :=
      (lookup_eq_some_iff_mem (convertList_nodup_keys A) n sz).mp hA
    have hpc : (!((convertList B).lookup n == some sz)) = true := by
      rw [beq_eq_false_iff_ne.mpr hB]
      rfl
    have : (n, sz) ∈ (convertList A).filter
        (fun p => !((convertList B).lookup p.1 == some p.2)) :=
      List.mem_filter.mpr ⟨hmem, hpc⟩
    exact List.mem_map_of_mem Prod.fst this

/-- Claim C4, witness: the claim's concrete instance, A = mesos {foo:100,
bar:50} and B = kubernetes {foo:100, bar:60, baz:10}, yields exactly
["bar"]. -/
theorem C4_divergence_spec_witness :
    (getIndicesWithDifferencesPure
          [⟨"foo", 0, 100, 0, "t"⟩, ⟨"bar", 0, 50, 0, "t"⟩]
          [⟨"foo", 0, 100, 0, "t"⟩, ⟨"bar", 0, 60, 0, "t"⟩, ⟨"baz", 0, 10, 0, "t"⟩]
        = ((convertList [⟨"foo", 0, 100, 0, "t"⟩, ⟨"bar", 0, 50, 0, "t"⟩]).filter
            (fun p => !((convertList
                [⟨"foo", 0, 100, 0, "t"⟩, ⟨"bar", 0, 60, 0, "t"⟩,
                 ⟨"baz", 0, 10, 0, "t"⟩]).lookup p.1 == some p.2))).map Prod.fst ∧
      ∀ n : String, n ∈ getIndicesWithDifferencesPure
          [⟨"foo", 0, 100, 0, "t"⟩, ⟨"bar", 0, 50, 0, "t"⟩]
          [⟨"foo", 0, 100, 0, "t"⟩, ⟨"bar", 0, 60, 0, "t"⟩, ⟨"baz", 0, 10, 0, "t"⟩] ↔
        ∃ sz : Int,
          (convertList [⟨"foo", 0, 100, 0, "t"⟩, ⟨"bar", 0, 50, 0, "t"⟩]).lookup n
              = some sz ∧
          (convertList [⟨"foo", 0, 100, 0, "t"⟩, ⟨"bar", 0, 60, 0, "t"⟩,
              ⟨"baz", 0, 10, 0, "t"⟩]).lookup n ≠ some sz) ∧
    getIndicesWithDifferencesPure
        [⟨"foo", 0, 100, 0, "t"⟩, ⟨"bar", 0, 50, 0, "t"⟩]
        [⟨"foo", 0, 100, 0, "t"⟩, ⟨"bar", 0, 60, 0, "t"⟩, ⟨"baz", 0, 10, 0, "t"⟩]
      = ["bar"] :=
  ⟨C4_divergence_spec
      [⟨"foo", 0, 100, 0, "t"⟩, ⟨"bar", 0, 50, 0, "t"⟩]
      [⟨"foo", 0, 100, 0, "t"⟩, ⟨"bar", 0, 60, 0, "t"⟩, ⟨"baz", 0, 10, 0, "t"⟩]
      (by decide),
   rfl⟩

/-! ### Download orchestrator (`downloadIndicesWithDifferences`, src/index.js
lines 155-196) -/

/-- `_.keys(this.configs)`: the two configured account names, in the
insertion order of the `configs` object (src/index.js lines 9-20). -/
def configsKeys : List String := ["mesos", "kubernetes"]

/-- The cache path of one (index, account) record artifact (src/index.js
line 169). -/
def pairPath (indexName appName : String) : String :=
  "./dist/indices/" ++ indexName ++ "-" ++ appName ++ ".json"

/-- State threaded through the orchestrator: the disk plus a log of the
`getRecordsFromIndex` calls performed, as (appName, indexName) pairs. -/
structure OrchState where
  fs : FS
  fetchLog : List (String × String)

/-- The body of the inner `pMap` (src/index.js lines 168-188): skip if the
pair's artifact already exists; otherwise fetch-and-normalize the records
and persist them, or persist a plain-text `ERROR: <message>` marker if the
fetch failed (the `try`/`catch` at lines 175-187). -/
def processPair (browse : String → String → Except String (List Record))
    (st : OrchState) (indexName appName : String) : OrchState :=
  if (st.fs.lookup (pairPath indexName appName)).isSome then st
  else
    match getRecordsFromIndex browse appName indexName with
    | Except.ok records =>
      ⟨upsert st.fs (pairPath indexName appName) (Blob.json records),
       st.fetchLog ++ [(appName, indexName)]⟩
    | Except.error e =>
      ⟨upsert st.fs (pairPath indexName appName) (Blob.text ("ERROR: " ++ e)),
       st.fetchLog ++ [(appName, indexName)]⟩

/-- Download loop over the divergent indices (the spec's
`downloadDivergentIndices(divergentNames)`): for each divergent index name,
for each configured account, sequentially (`pMap` with concurrency 1 at both
levels), process the pair.  The divergent name list is the one computed by
`getIndicesWithDifferences` (src/index.js line 156), passed here as the
`indices` argument. -/
def downloadDivergentIndices (browse : String → String → Except String (List Record))
    (indices : List String) (fs0 : FS) : OrchState :=
  indices.foldl
    (fun st indexName =>
      configsKeys.foldl (fun st2 appName => processPair browse st2 indexName appName) st)
    ⟨fs0, []⟩

/-- `downloadIndicesWithDifferences()` (src/index.js lines 155-196): compute
the divergent index list, then download every (index, account) pair. -/
def downloadIndicesWithDifferences (listIndexes : String → List RawIndex)
    (browse : String → String → Except String (List Record)) (st : AppState) :
    Except String OrchState :=
  match getIndicesWithDifferences listIndexes st with
  | (Except.ok indices, st1) => Except.ok (downloadDivergentIndices browse indices st1.fs)
  | (Except.error e, _) => Except.error e

theorem string_append_right_cancel {s1 s2 t : String} (h : s1 ++ t = s2 ++ t) :
    s1 = s2 := by
  have hd := congrArg String.data h
  rw [String.data_append, String.data_append] at hd
  exact congrArg String.mk (List.append_cancel_right hd)

theorem string_append_left_cancel {s t1 t2 : String} (h : s ++ t1 = s ++ t2) :
    t1 = t2 := by
  have hd := congrArg String.data h
  rw [String.data_append, String.data_append] at hd
  exact congrArg String.mk (List.append_cancel_left hd)

theorem pairPath_assoc (j b : String) :
    pairPath j b = ("./dist/indices/" ++ j) ++ ("-" ++ (b ++ ".json")) := by
  simp [pairPath, String.append_assoc]

theorem pairPath_cross_absurd {j1 j2 : String}
    (h : pairPath j1 "mesos" = pairPath j2 "kubernetes") : False := by
  have h1 : ("-" ++ ("mesos" ++ ".json")).data <:+ (pairPath j1 "mesos").data := by
    rw [pairPath_assoc, String.data_append]
    exact List.suffix_append _ _
  have h2 : ("-" ++ ("kubernetes" ++ ".json")).data <:+ (pairPath j2 "kubernetes").data := by
    rw [pairPath_assoc, String.data_append]
    exact List.suffix_append _ _
  rw [h] at h1
  have hsub : ("-" ++ ("mesos" ++ ".json")).data <:+ ("-" ++ ("kubernetes" ++ ".json")).data :=
    List.suffix_of_suffix_length_le h1 h2 (by decide)
  exact absurd hsub (by decide)

theorem pairPath_inj {j1 j2 b1 b2 : String} (hb1 : b1 ∈ configsKeys)
    (hb2 : b2 ∈ configsKeys) (h : pairPath j1 b1 = pairPath j2 b2) :
    j1 = j2 ∧ b1 = b2 := by
  have hsame : ∀ {ja jb : String} {b : String}, pairPath ja b = pairPath jb b → ja = jb := by
    intro ja jb b hj
    have h1 := string_append_right_cancel hj
    have h2 := string_append_right_cancel h1
    have h3 := string_append_right_cancel h2
    exact string_append_left_cancel h3
  fin_cases hb1 <;> fin_cases hb2
  · exact ⟨hsame h, rfl⟩
  · exact absurd h (fun h0 => pairPath_cross_absurd h0)
  · exact absurd h.symm (fun h0 => pairPath_cross_absurd h0)
  · exact ⟨hsame h, rfl⟩

/-- The flat pair list processed by the orchestrator, in processing order. -/
def orchPairs (indices : List String) : List (String × String) :=
  (indices.map (fun i => configsKeys.map (fun a => (i, a)))).flatten

theorem downloadDivergentIndices_eq_foldl
    (browse : String → String → Except String (List Record))
    (indices : List String) (fs0 : FS) :
    downloadDivergentIndices browse indices fs0
      = (orchPairs indices).foldl (fun st p => processPair browse st p.1 p.2) ⟨fs0, []⟩ := by
  simp only [downloadDivergentIndices, orchPairs, List.foldl_flatten, List.foldl_map]

theorem mem_orchPairs {indices : List String} {j b : String} :
    (j, b) ∈ orchPairs indices ↔ j ∈ indices ∧ b ∈ configsKeys := by
  rw [orchPairs, List.mem_flatten]
  constructor
  · rintro ⟨l, hl, hx⟩
    rcases List.mem_map.mp hl with ⟨i, hi, rfl⟩
    rcases List.mem_map.mp hx with ⟨a, ha, heq⟩
    have h1 : i = j := congrArg Prod.fst heq
    have h2 : a = b := congrArg Prod.snd heq
    subst h1
    subst h2
    exact ⟨hi, ha⟩
  · rintro ⟨hj, hb⟩
    exact ⟨configsKeys.map (fun a => (j, a)), List.mem_map_of_mem _ hj,
      List.mem_map_of_mem _ hb⟩

theorem orchPairs_nodup {indices : List String} (h : indices.Nodup) :
    (orchPairs indices).Nodup := by
  rw [orchPairs]
  induction indices with
  | nil => simp
  | cons i t ih =>
    rcases List.nodup_cons.mp h with ⟨hi, ht⟩
    simp only [List.map_cons, List.flatten_cons]
    refine List.Nodup.append (by simp [configsKeys]) (ih ht) ?_
    intro x hx hx2
    rcases List.mem_map.mp hx with ⟨a, ha, rfl⟩
    rcases List.mem_flatten.mp hx2 with ⟨l, hl, hxl⟩
    rcases List.mem_map.mp hl with ⟨i2, hi2, rfl⟩
    rcases List.mem_map.mp hxl with ⟨a2, ha2, heq⟩
    have : i2 = i := congrArg Prod.fst heq
    subst this
    exact hi hi2

theorem processPair_mono (browse : String → String → Except String (List Record))
    (st : OrchState) (j a k : String) (v : Blob) (h : st.fs.lookup k = some v) :
    (processPair browse st j a).fs.lookup k = some v := by
  rw [processPair]
  rcases hc : (st.fs.lookup (pairPath j a)).isSome with _ | _
  · simp only [hc, Bool.false_eq_true, if_false]
    have hne : k ≠ pairPath j a := by
      intro h0
      rw [← h0, h] at hc
      exact Bool.noConfusion hc
    rcases getRecordsFromIndex browse a j with e | records
    · simp only []
      rw [lookup_upsert_ne _ _ _ _ hne]
      exact h
    · simp only []
      rw [lookup_upsert_ne _ _ _ _ hne]
      exact h
  · simp only [hc, if_true]
    exact h

theorem foldl_processPair_mono (browse : String → String → Except String (List Record))
    (P : List (String × String)) (st : OrchState) (k : String) (v : Blob)
    (h : st.fs.lookup k = some v) :
    ((P.foldl (fun st p => processPair browse st p.1 p.2) st).fs.lookup k) = some v := by
  induction P generalizing st with
  | nil => exact h
  | cons p t ih =>
    simp only [List.foldl_cons]
    exact ih _ (processPair_mono browse st p.1 p.2 k v h)

theorem processPair_cached (browse : String → String → Except String (List Record))
    (st : OrchState) (j a : String)
    (hc : (st.fs.lookup (pairPath j a)).isSome = true) :
    processPair browse st j a = st := by
  rw [processPair]
  simp [hc]

theorem processPair_uncached (browse : String → String → Except String (List Record))
    (st : OrchState) (j a : String)
    (hc : (st.fs.lookup (pairPath j a)).isSome = false) :
    processPair browse st j a
      = ⟨upsert st.fs (pairPath j a)
           (match getRecordsFromIndex browse a j with
            | Except.ok records => Blob.json records
            | Except.error e => Blob.text ("ERROR: " ++ e)),
         st.fetchLog ++ [(a, j)]⟩ := by
  rw [processPair]
  simp only [hc, Bool.false_eq_true, if_false]
  cases hg : getRecordsFromIndex browse a j with
  | error e => rfl
  | ok records => rfl

theorem processPair_preserves_ne (browse : String → String → Except String (List Record))
    (st : OrchState) (j a k : String) (hk : k ≠ pairPath j a) :
    (processPair browse st j a).fs.lookup k = st.fs.lookup k := by
  rcases hc : (st.fs.lookup (pairPath j a)).isSome with _ | _
  · rw [processPair_uncached browse st j a hc]
    exact lookup_upsert_ne _ _ _ _ hk
  · rw [processPair_cached browse st j a hc]

theorem processPair_cached_inv (browse : String → String → Except String (List Record))
    (st : OrchState) (j a jx b : String) (v : Blob)
    (hfs : st.fs.lookup (pairPath jx b) = some v) (hlog : (b, jx) ∉ st.fetchLog) :
    (processPair browse st j a).fs.lookup (pairPath jx b) = some v ∧
      (b, jx) ∉ (processPair browse st j a).fetchLog := by
  rcases hc : (st.fs.lookup (pairPath j a)).isSome with _ | _
  · have hnep : pairPath jx b ≠ pairPath j a := by
      intro h0
      rw [← h0, hfs] at hc
      exact Bool.noConfusion hc
    rw [processPair_uncached browse st j a hc]
    constructor
    · exact (lookup_upsert_ne _ _ _ _ hnep).trans hfs
    · intro hmem
      rcases List.mem_append.mp hmem with h0 | h0
      · exact hlog h0
      · rcases List.mem_singleton.mp h0 with h1
        have ha : b = a := congrArg Prod.fst h1
        have hj : jx = j := congrArg Prod.snd h1
        exact hnep (by rw [ha, hj])
  · rw [processPair_cached browse st j a hc]
    exact ⟨hfs, hlog⟩

theorem foldl_processPair_cached (browse : String → String → Except String (List Record))
    (P : List (String × String)) (st : OrchState) (j b : String) (v : Blob)
    (hfs : st.fs.lookup (pairPath j b) = some v) (hlog : (b, j) ∉ st.fetchLog) :
    ((P.foldl (fun st p => processPair browse st p.1 p.2) st).fs.lookup (pairPath j b)
        = some v) ∧
      (b, j) ∉ (P.foldl (fun st p => processPair browse st p.1 p.2) st).fetchLog := by
  induction P generalizing st with
  | nil => exact ⟨hfs, hlog⟩
  | cons p t ih =>
    simp only [List.foldl_cons]
    rcases processPair_cached_inv browse st p.1 p.2 j b v hfs hlog with ⟨h1, h2⟩
    exact ih _ h1 h2

theorem foldl_processPair_fresh (browse : String → String → Except String (List Record))
    (P : List (String × String)) (hnodup : P.Nodup)
    (hinj : ∀ p ∈ P, ∀ q ∈ P, pairPath p.1 p.2 = pairPath q.1 q.2 → p = q)
    (st : OrchState) (j b : String) (hjb : (j, b) ∈ P)
    (hfresh : st.fs.lookup (pairPath j b) = none) :
    (P.foldl (fun st p => processPair browse st p.1 p.2) st).fs.lookup (pairPath j b)
      = some (match getRecordsFromIndex browse b j with
              | Except.ok records => Blob.json records
              | Except.error e => Blob.text ("ERROR: " ++ e)) := by
  induction P generalizing st with
  | nil => cases hjb
  | cons p t ih =>
    rcases List.nodup_cons.mp hnodup with ⟨hp, ht⟩
    simp only [List.foldl_cons]
    by_cases hpe : p = (j, b)
    · subst hpe
      have hc : (st.fs.lookup (pairPath j b)).isSome = false := by
        rw [hfresh]
        rfl
      rw [processPair_uncached browse st j b hc]
      apply foldl_processPair_mono
      exact lookup_upsert_self _ _ _
    · have hjb2 : (j, b) ∈ t := by
        rcases List.mem_cons.mp hjb with h0 | h0
        · exact absurd h0.symm hpe
        · exact h0
      have hne : pairPath j b ≠ pairPath p.1 p.2 := by
        intro h0
        exact hpe (hinj p (List.mem_cons_self _ _) (j, b)
          (List.mem_cons_of_mem _ hjb2) h0.symm)
      refine ih ht ?_ _ hjb2 ?_
      · intro x hx y hy hxy
        exact hinj x (List.mem_cons_of_mem _ hx) y (List.mem_cons_of_mem _ hy) hxy
      · rw [processPair_preserves_ne browse st p.1 p.2 _ hne]
        exact hfresh

theorem orchPairs_pathInj (indices : List String) :
    ∀ p ∈ orchPairs indices, ∀ q ∈ orchPairs indices,
      pairPath p.1 p.2 = pairPath q.1 q.2 → p = q := by
  intro p hp q hq h
  cases p with
  | mk p1 p2 =>
    cases q with
    | mk q1 q2 =>
      have hp2 := (mem_orchPairs.mp hp).2
      have hq2 := (mem_orchPairs.mp hq).2
      rcases pairPath_inj hp2 hq2 h with ⟨h1, h2⟩
      simp only [Prod.mk.injEq]
      exact ⟨h1, h2⟩

/-- Claim C6: in the orchestrator run over a duplicate-free divergent index
list, a pair whose fetch-or-normalize fails gets a plain-text
`ERROR: <message>` marker persisted at its cache key (no error is raised —
the run is a total function and still processes everything); every other
not-yet-cached pair whose fetch succeeds is persisted normally as its
normalized record dump; and a pair whose cache key already exists keeps its
cached artifact unchanged and is never fetched. -/
theorem C6_failure_isolation (browse : String → String → Except String (List Record))
    (indices : List String) (fs0 : FS) (hnodup : indices.Nodup) (i a msg : String)
    (hi : i ∈ indices) (ha : a ∈ configsKeys)
    (hfail : browse a i = Except.error msg)
    (hfresh : fs0.lookup (pairPath i a) = none) :
    (downloadDivergentIndices browse indices fs0).fs.lookup (pairPath i a)
        = some (Blob.text ("ERROR: " ++ msg)) ∧
    (∀ j ∈ indices, ∀ b ∈ configsKeys, ¬(j = i ∧ b = a) →
      fs0.lookup (pairPath j b) = none →
      ∀ recs, browse b j = Except.ok recs →
        (downloadDivergentIndices browse indices fs0).fs.lookup (pairPath j b)
          = some (Blob.json (normalize recs))) ∧
    (∀ j b : String, ∀ v : Blob, fs0.lookup (pairPath j b) = some v →
      (downloadDivergentIndices browse indices fs0).fs.lookup (pairPath j b) = some v ∧
      (b, j) ∉ (downloadDivergentIndices browse indices fs0).fetchLog) := by
  have hP := orchPairs_nodup hnodup
  have hinj := orchPairs_pathInj indices
  simp only [downloadDivergentIndices_eq_foldl]
  refine ⟨?_, ?_, ?_⟩
  · have h1 := foldl_processPair_fresh browse (orchPairs indices) hP hinj
      ⟨fs0, []⟩ i a (mem_orchPairs.mpr ⟨hi, ha⟩) hfresh
    rw [getRecordsFromIndex, hfail] at h1
    simpa [Except.map] using h1
  · intro j hj b hb hne hfj recs hok
    have h2 := foldl_processPair_fresh browse (orchPairs indices) hP hinj
      ⟨fs0, []⟩ j b (mem_orchPairs.mpr ⟨hj, hb⟩) hfj
    rw [getRecordsFromIndex, hok] at h2
    simpa [Except.map] using h2
  · intro j b v hv
    exact foldl_processPair_cached browse (orchPairs indices) ⟨fs0, []⟩ j b v hv
      (by simp)

/-- Claim C6, witness: two divergent indices where fetching index bad fails
on both accounts, and the pair (good, kubernetes) is already cached. -/
theorem C6_failure_isolation_witness :
    (downloadDivergentIndices
          (fun _ i => if i == "bad" then Except.error "boom"
                      else Except.ok ([] : List Record))
          ["good", "bad"]
          [(pairPath "good" "kubernetes", Blob.json [])]).fs.lookup
        (pairPath "bad" "mesos")
      = some (Blob.text ("ERROR: " ++ "boom")) ∧
    (∀ j ∈ ["good", "bad"], ∀ b ∈ configsKeys, ¬(j = "bad" ∧ b = "mesos") →
      List.lookup (pairPath j b) [(pairPath "good" "kubernetes", Blob.json [])] = none →
      ∀ recs, (fun _ i => if i == "bad" then Except.error "boom"
                          else Except.ok ([] : List Record)) b j = Except.ok recs →
        (downloadDivergentIndices
            (fun _ i => if i == "bad" then Except.error "boom"
                        else Except.ok ([] : List Record))
            ["good", "bad"]
            [(pairPath "good" "kubernetes", Blob.json [])]).fs.lookup (pairPath j b)
          = some (Blob.json (normalize recs))) ∧
    (∀ j b : String, ∀ v : Blob,
      List.lookup (pairPath j b) [(pairPath "good" "kubernetes", Blob.json [])] = some v →
      (downloadDivergentIndices
          (fun _ i => if i == "bad" then Except.error "boom"
                      else Except.ok ([] : List Record))
          ["good", "bad"]
          [(pairPath "good" "kubernetes", Blob.json [])]).fs.lookup (pairPath j b)
        = some v ∧
      (b, j) ∉ (downloadDivergentIndices
          (fun _ i => if i == "bad" then Except.error "boom"
                      else Except.ok ([] : List Record))
          ["good", "bad"]
          [(pairPath "good" "kubernetes", Blob.json [])]).fetchLog) :=
  C6_failure_isolation
    (fun _ i => if i == "bad" then Except.error "boom" else Except.ok ([] : List Record))
    ["good", "bad"] [(pairPath "good" "kubernetes", Blob.json [])]
    (by decide) "bad" "mesos" "boom" (by decide) (by decide) rfl rfl

/-! ### Content diff reporter (`getDifferentIndices`, src/index.js lines
221-266).  The reporter reads only file names (via glob) and on-disk sizes
(via `fs.statSync().size`), so its disk is modelled as an association list
from path to byte size. -/

/-- Reporter view of the disk: path to persisted artifact size in bytes. -/
abbrev DiskFS := List (String × Nat)

/-- The result of one `fs.statSync` call: the file size, plus the allocation
identity of the returned `fs.Stats` object.  `statSync` allocates a fresh
object on every call, so two results always carry distinct `ref`s, and
JavaScript `===` between two `Stats` objects compares exactly these
identities. -/
structure Stats where
  size : Nat
  ref : Nat
deriving DecidableEq

/-- `fs.statSync(path)`: stats an existing file (threading the allocation
counter) and throws for a missing one. -/
def statSync (disk : DiskFS) (p : String) (counter : Nat) :
    Except String (Stats × Nat) :=
  match disk.lookup p with
  | some sz => Except.ok (⟨sz, counter⟩, counter + 1)
  | none => Except.error ("ENOENT: no such file or directory, stat " ++ p)

/-- JavaScript `===` on two `fs.Stats` objects: reference equality. -/
def statsStrictEq (a b : Stats) : Bool := a.ref == b.ref

/-- Prefix test on strings. -/
def startsWithStr (s pre : String) : Bool := List.isPrefixOf pre.data s.data

/-- `firost.glob('./dist/indices/*.json')`: the stored paths matching the
pattern.  The relative order of the returned paths does not affect any
property proved below. -/
def glob (disk : DiskFS) : List String :=
  (disk.map Prod.fst).filter
    (fun p => startsWithStr p "./dist/indices/" && endsWithStr p ".json")

/-- The last '/'-separated segment of a path (the directory-stripping part of
`path.basename`). -/
def lastSegment (l : List Char) : List Char := (splitChar '/' l).getLastD []

/-- Remove a suffix when present (the extension-stripping part of
`path.basename(p, ext)`). -/
def dropSuffixChars (suf l : List Char) : List Char :=
  if List.isSuffixOf suf l then l.take (l.length - suf.length) else l

/-- `path.basename(filepath, '.json')` (src/index.js line 227). -/
def basenameNoJson (p : String) : String :=
  String.mk (dropSuffixChars ".json".data (lastSegment p.data))

/-- The (type, indexName) pair parsed from one artifact filename. -/
structure ParsedPath where
  type : String
  indexName : String
deriving DecidableEq

/-- `Array.prototype.join('-')`. -/
def joinWith (c : Char) : List (List Char) → List Char
  | [] => []
  | [g] => g
  | g :: g2 :: gs => g ++ c :: joinWith c (g2 :: gs)

/-- The stem-splitting step of src/index.js lines 228-234: split the
basename on '-', the last segment is the type, the '-'-joined remainder is
the index name. -/
def parseStem (stem : String) : ParsedPath :=
  let split := splitChar '-' stem.data
  ⟨String.mk (split.getLastD []), String.mk (joinWith '-' split.dropLast)⟩

/-- The map step of `getDifferentIndices` (src/index.js lines 226-235). -/
def parseArtifactPath (filepath : String) : ParsedPath :=
  parseStem (basenameNoJson filepath)

/-- The `_.transform` step (src/index.js lines 237-242): push each parsed
index name onto the bucket named by its type.  A type other than the two
initialised keys makes `result[value.type]` undefined and `.push` throw a
TypeError. -/
def partitionTypes (l : List ParsedPath) : Except String (List String × List String) :=
  l.foldl
    (fun acc v => acc.bind (fun r =>
      if v.type == "kubernetes" then Except.ok (r.1 ++ [v.indexName], r.2)
      else if v.type == "mesos" then Except.ok (r.1, r.2 ++ [v.indexName])
      else Except.error "TypeError: Cannot read property push of undefined"))
    (Except.ok ([], []))

/-- One iteration of the `_.each` in the `.thru` block (src/index.js lines
246-260): skip a falsey (empty) index name, stat both artifacts (the mesos
stat runs even when the kubernetes one is small), skip when the kubernetes
artifact is under 100 bytes or the two `fs.Stats` objects are strictly equal
(`kubeSize === mesosSize` — reference equality of two fresh objects), else
report the index. -/
def genuineStep (disk : DiskFS) (acc : Except String (List String × Nat))
    (indexName : String) : Except String (List String × Nat) :=
  acc.bind (fun r =>
    if indexName == "" then Except.ok r
    else
      (statSync disk (pairPath indexName "kubernetes") r.2).bind (fun ks =>
        (statSync disk (pairPath indexName "mesos") ks.2).bind (fun ms =>
          if decide (ks.1.size < 100) || statsStrictEq ks.1 ms.1 then
            Except.ok (r.1, ms.2)
          else Except.ok (r.1 ++ [indexName], ms.2))))

/-- `getDifferentIndices()` (src/index.js lines 221-266): glob the artifact
files, parse each filename into (type, indexName), partition by type, then
walk the kubernetes group comparing on-disk sizes. -/
def getDifferentIndices (disk : DiskFS) : Except String (List String) :=
  (partitionTypes ((glob disk).map parseArtifactPath)).bind (fun r =>
    (r.1.foldl (genuineStep disk) (Except.ok ([], 0))).map Prod.fst)

theorem splitChar_ne_nil (c : Char) (l : List Char) : splitChar c l ≠ [] := by
  cases l with
  | nil => simp [splitChar]
  | cons x xs =>
    rw [splitChar]
    by_cases h : x = c
    · simp [h]
    · simp only [h, if_false]
      rcases hs : splitChar c xs with _ | ⟨g, gs⟩
      · simp
      · simp

theorem splitChar_append (c : Char) (a b : List Char) :
    splitChar c (a ++ c :: b) = splitChar c a ++ splitChar c b := by
  induction a with
  | nil =>
    simp [splitChar]
  | cons x a2 ih =>
    by_cases h : x = c
    · subst h
      show splitChar x ((x :: a2) ++ x :: b) = splitChar x (x :: a2) ++ splitChar x b
      rw [List.cons_append, splitChar, splitChar]
      simp only [if_pos rfl]
      rw [ih]
      rfl
    · show splitChar c ((x :: a2) ++ c :: b) = splitChar c (x :: a2) ++ splitChar c b
      rw [List.cons_append, splitChar, splitChar]
      simp only [h, if_false]
      rcases hs : splitChar c a2 with _ | ⟨g, gs⟩
      · exact absurd hs (splitChar_ne_nil c a2)
      · rw [ih, hs]
        rfl

theorem splitChar_no_delim (c : Char) (l : List Char) (h : ∀ x ∈ l, x ≠ c) :
    splitChar c l = [l] := by
  induction l with
  | nil => rfl
  | cons x xs ih =>
    rw [splitChar]
    have hx : ¬ x = c := h x (List.mem_cons_self _ _)
    simp only [hx, if_false]
    rw [ih (fun y hy => h y (List.mem_cons_of_mem _ hy))]

theorem splitChar_cons_self (c : Char) (xs : List Char) :
    splitChar c (c :: xs) = [] :: splitChar c xs := by
  rw [splitChar]
  simp

theorem joinWith_splitChar (c : Char) (l : List Char) :
    joinWith c (splitChar c l) = l := by
  induction l with
  | nil => rfl
  | cons x xs ih =>
    by_cases h : x = c
    · subst h
      rw [show splitChar x (x :: xs) = [] :: splitChar x xs from splitChar_cons_self x xs]
      rcases hs : splitChar x xs with _ | ⟨g, gs⟩
      · exact absurd hs (splitChar_ne_nil x xs)
      · show [] ++ x :: joinWith x (g :: gs) = x :: xs
        have ih2 : joinWith x (g :: gs) = xs := by
          rw [← hs]
          exact ih
        rw [ih2]
        rfl
    · rw [splitChar]
      simp only [h, if_false]
      rcases hs : splitChar c xs with _ | ⟨g, gs⟩
      · exact absurd hs (splitChar_ne_nil c xs)
      · cases gs with
        | nil =>
          show x :: g = x :: xs
          rw [hs] at ih
          show x :: g = x :: xs
          have : joinWith c [g] = g := rfl
          rw [this] at ih
          rw [ih]
        | cons g2 gs2 =>
          show (x :: g) ++ c :: joinWith c (g2 :: gs2) = x :: xs
          rw [hs] at ih
          show x :: (g ++ c :: joinWith c (g2 :: gs2)) = x :: xs
          have : joinWith c (g :: g2 :: gs2) = g ++ c :: joinWith c (g2 :: gs2) := rfl
          rw [← this, ih]

theorem parseStem_pair (indexName account : String)
    (hnd : ∀ x ∈ account.data, x ≠ '-') :
    parseStem (indexName ++ "-" ++ account) = ⟨account, indexName⟩ := by
  have hdata : (indexName ++ "-" ++ account).data
      = indexName.data ++ '-' :: account.data := by
    rw [String.data_append, String.data_append]
    simp
  rw [parseStem]
  simp only [hdata, splitChar_append]
  rw [splitChar_no_delim '-' account.data hnd]
  rw [List.getLastD_concat, List.dropLast_concat]
  have h1 : String.mk account.data = account := rfl
  have h2 : String.mk (joinWith '-' (splitChar '-' indexName.data)) = indexName := by
    rw [joinWith_splitChar]
  rw [h1, h2]

theorem configsKeys_no_dash {account : String} (ha : account ∈ configsKeys) :
    ∀ x ∈ account.data, x ≠ '-' := by
  fin_cases ha <;> decide

theorem configsKeys_no_slash {account : String} (ha : account ∈ configsKeys) :
    ∀ x ∈ account.data, x ≠ '/' := by
  fin_cases ha <;> decide

theorem dropSuffixChars_append (suf l : List Char) :
    dropSuffixChars suf (l ++ suf) = l := by
  rw [dropSuffixChars]
  have h1 : List.isSuffixOf suf (l ++ suf) = true :=
    List.isSuffixOf_iff_suffix.mpr (List.suffix_append l suf)
  rw [if_pos h1, List.length_append]
  have h2 : l.length + suf.length - suf.length = l.length := by omega
  rw [h2]
  exact List.take_left l suf

theorem parseArtifactPath_pairPath (indexName account : String)
    (ha : account ∈ configsKeys) (hslash : ∀ ch ∈ indexName.data, ch ≠ '/') :
    parseArtifactPath (pairPath indexName account) = ⟨account, indexName⟩ := by
  have hstem : basenameNoJson (pairPath indexName account)
      = indexName ++ "-" ++ account := by
    rw [basenameNoJson]
    have hdata : (pairPath indexName account).data
        = "./dist/indices".data ++ '/' ::
            ((indexName ++ "-" ++ account).data ++ ".json".data) := by
      simp only [pairPath, String.data_append]
      simp
    rw [hdata, lastSegment, splitChar_append]
    have hnos : ∀ x ∈ (indexName ++ "-" ++ account).data ++ ".json".data, x ≠ '/' := by
      intro x hx
      rcases List.mem_append.mp hx with h0 | h0
      · rw [String.data_append, String.data_append] at h0
        rcases List.mem_append.mp h0 with h1 | h1
        · rcases List.mem_append.mp h1 with h2 | h2
          · exact hslash x h2
          · have hxe : x = '-' := by simpa using h2
            subst hxe
            decide
        · exact configsKeys_no_slash ha x h1
      · have hxm : x ∈ ['.', 'j', 's', 'o', 'n'] := h0
        fin_cases hxm <;> decide
    rw [splitChar_no_delim '/' _ hnos, List.getLastD_concat, dropSuffixChars_append]
  rw [parseArtifactPath, hstem]
  exact parseStem_pair indexName account (configsKeys_no_dash ha)

/-- Claim C10: the reporter's filename parsing inverts the orchestrator's
key encoding.  For every index name (which may itself contain the '-'
delimiter, but no path separator) and every account name among the two
configured ones, splitting the basename of `{indexName}-{accountName}.json`
on '-' and taking the last segment as the account and the '-'-joined
remainder as the index name recovers the original pair exactly — both at the
stem level and on the full artifact path written by the orchestrator. -/
theorem C10_key_roundtrip (indexName account : String) (ha : account ∈ configsKeys)
    (hslash : ∀ ch ∈ indexName.data, ch ≠ '/') :
    parseStem (indexName ++ "-" ++ account) = ⟨account, indexName⟩ ∧
    parseArtifactPath (pairPath indexName account) = ⟨account, indexName⟩ :=
  ⟨parseStem_pair indexName account (configsKeys_no_dash ha),
   parseArtifactPath_pairPath indexName account ha hslash⟩

/-- Claim C10, witness: an index name containing the delimiter round-trips
through the mesos key encoding. -/
theorem C10_key_roundtrip_witness :
    parseStem ("docs-v2-beta" ++ "-" ++ "mesos") = ⟨"mesos", "docs-v2-beta"⟩ ∧
    parseArtifactPath (pairPath "docs-v2-beta" "mesos") = ⟨"mesos", "docs-v2-beta"⟩ :=
  C10_key_roundtrip "docs-v2-beta" "mesos" (by decide) (by decide)

/-- Claim C1: the code does NOT exclude an index whose kubernetes and mesos
artifacts have identical on-disk sizes.  Line 256 compares the two
`fs.Stats` objects with `===` (`kubeSize === mesosSize`), which is reference
equality of two freshly allocated objects and therefore always false, so the
size-equality branch of the claim (and of the spec) never fires: with both
artifacts at 500 bytes the index is reported.  The sub-100-byte exclusion
and the 500-vs-400 inclusion do hold; the intended comparison was plainly
`kubeSize.size === mesosSize.size`. -/
theorem C1_equal_sizes_still_reported :
    getDifferentIndices
        [(pairPath "idx" "kubernetes", 500), (pairPath "idx" "mesos", 500)]
      = Except.ok ["idx"] ∧
    getDifferentIndices
        [(pairPath "small" "kubernetes", 50), (pairPath "small" "mesos", 900),
         (pairPath "big" "kubernetes", 500), (pairPath "big" "mesos", 400)]
      = Except.ok ["big"] :=
  ⟨rfl, rfl⟩

theorem foldl_genuine_error (disk : DiskFS) (l : List String) (e : String) :
    l.foldl (genuineStep disk) (Except.error e) = Except.error e := by
  induction l with
  | nil => rfl
  | cons x t ih =>
    simp only [List.foldl_cons]
    have hstep : genuineStep disk (Except.error e) x = Except.error e := rfl
    rw [hstep]
    exact ih

theorem foldl_genuine_missing (disk : DiskFS) (l : List String) (name : String)
    (hmem : name ∈ l) (hne : name ≠ "")
    (hmiss : disk.lookup (pairPath name "mesos") = none) :
    ∀ r0 : List String × Nat, ∃ e,
      l.foldl (genuineStep disk) (Except.ok r0) = Except.error e := by
  induction l with
  | nil => cases hmem
  | cons x t ih =>
    intro r0
    by_cases hx : x = name
    · subst hx
      have hbeq : (x == "") = false := by
        rcases h0 : x == "" with _ | _
        · rfl
        · exact absurd (by simpa using h0) hne
      simp only [List.foldl_cons]
      rcases hk : disk.lookup (pairPath x "kubernetes") with _ | sz
      · have hstep : genuineStep disk (Except.ok r0) x
            = Except.error ("ENOENT: no such file or directory, stat "
                ++ pairPath x "kubernetes") := by
          rw [genuineStep]
          simp only [Except.bind, hbeq, Bool.false_eq_true, if_false, statSync, hk]
        rw [hstep, foldl_genuine_error]
        exact ⟨_, rfl⟩
      · have hstep : genuineStep disk (Except.ok r0) x
            = Except.error ("ENOENT: no such file or directory, stat "
                ++ pairPath x "mesos") := by
          rw [genuineStep]
          simp only [Except.bind, hbeq, Bool.false_eq_true, if_false, statSync, hk, hmiss]
        rw [hstep, foldl_genuine_error]
        exact ⟨_, rfl⟩
    · have hmem2 : name ∈ t := by
        rcases List.mem_cons.mp hmem with h0 | h0
        · exact absurd h0.symm hx
        · exact h0
      simp only [List.foldl_cons]
      rcases hstep : genuineStep disk (Except.ok r0) x with e1 | r1
      · rw [foldl_genuine_error]
        exact ⟨_, rfl⟩
      · exact ih hmem2 r1

/-- The fold step of `partitionTypes`, named for the lemmas below. -/
def partitionStep (acc : Except String (List String × List String)) (v : ParsedPath) :
    Except String (List String × List String) :=
  acc.bind (fun r =>
    if v.type == "kubernetes" then Except.ok (r.1 ++ [v.indexName], r.2)
    else if v.type == "mesos" then Except.ok (r.1, r.2 ++ [v.indexName])
    else Except.error "TypeError: Cannot read property push of undefined")

theorem partitionTypes_eq_foldl (l : List ParsedPath) :
    partitionTypes l = l.foldl partitionStep (Except.ok ([], [])) := rfl

theorem foldl_partitionStep_error (l : List ParsedPath) (e : String) :
    l.foldl partitionStep (Except.error e) = Except.error e := by
  induction l with
  | nil => rfl
  | cons v t ih =>
    simp only [List.foldl_cons]
    have hstep : partitionStep (Except.error e) v = Except.error e := rfl
    rw [hstep]
    exact ih

theorem foldl_partitionStep_prefix (l : List ParsedPath) :
    ∀ k0 m0 ks ms, l.foldl partitionStep (Except.ok (k0, m0)) = Except.ok (ks, ms) →
      ∃ k1, ks = k0 ++ k1 := by
  induction l with
  | nil =>
    intro k0 m0 ks ms h
    injection h with h0
    refine ⟨[], ?_⟩
    rw [(Prod.mk.injEq _ _ _ _).mp h0 |>.1, List.append_nil]
  | cons v t ih =>
    intro k0 m0 ks ms h
    simp only [List.foldl_cons] at h
    rcases h1 : v.type == "kubernetes" with _ | _
    · rcases h2 : v.type == "mesos" with _ | _
      · have hstep : partitionStep (Except.ok (k0, m0)) v
            = Except.error "TypeError: Cannot read property push of undefined" := by
          rw [partitionStep]
          simp only [Except.bind, h1, h2, Bool.false_eq_true, if_false]
        rw [hstep, foldl_partitionStep_error] at h
        exact Except.noConfusion h
      · have hstep : partitionStep (Except.ok (k0, m0)) v
            = Except.ok (k0, m0 ++ [v.indexName]) := by
          rw [partitionStep]
          simp only [Except.bind, h1, h2, Bool.false_eq_true, if_false, if_true]
        rw [hstep] at h
        exact ih k0 _ ks ms h
    · have hstep : partitionStep (Except.ok (k0, m0)) v
          = Except.ok (k0 ++ [v.indexName], m0) := by
        rw [partitionStep]
        simp only [Except.bind, h1, if_true]
      rw [hstep] at h
      rcases ih _ _ ks ms h with ⟨k1, hk1⟩
      exact ⟨[v.indexName] ++ k1, by rw [hk1, List.append_assoc]⟩

theorem mem_kubernetes_of_partition (l : List ParsedPath) (v : ParsedPath)
    (hv : v ∈ l) (ht : v.type = "kubernetes") :
    ∀ k0 m0 ks ms, l.foldl partitionStep (Except.ok (k0, m0)) = Except.ok (ks, ms) →
      v.indexName ∈ ks := by
  induction l with
  | nil => cases hv
  | cons u t ih =>
    intro k0 m0 ks ms h
    simp only [List.foldl_cons] at h
    by_cases hu : v = u
    · subst hu
      have h1 : (v.type == "kubernetes") = true := by
        rw [ht]
        rfl
      have hstep : partitionStep (Except.ok (k0, m0)) v
          = Except.ok (k0 ++ [v.indexName], m0) := by
        rw [partitionStep]
        simp only [Except.bind, h1, if_true]
      rw [hstep] at h
      rcases foldl_partitionStep_prefix t _ _ ks ms h with ⟨k1, hk1⟩
      rw [hk1, List.append_assoc]
      exact List.mem_append.mpr (Or.inr (List.mem_append.mpr (Or.inl (List.mem_singleton_self _))))
    · have hv2 : v ∈ t := by
        rcases List.mem_cons.mp hv with h0 | h0
        · exact absurd h0 hu
        · exact h0
      rcases h1 : u.type == "kubernetes" with _ | _
      · rcases h2 : u.type == "mesos" with _ | _
        · have hstep : partitionStep (Except.ok (k0, m0)) u
              = Except.error "TypeError: Cannot read property push of undefined" := by
            rw [partitionStep]
            simp only [Except.bind, h1, h2, Bool.false_eq_true, if_false]
          rw [hstep, foldl_partitionStep_error] at h
          exact Except.noConfusion h
        · have hstep : partitionStep (Except.ok (k0, m0)) u
              = Except.ok (k0, m0 ++ [u.indexName]) := by
            rw [partitionStep]
            simp only [Except.bind, h1, h2, Bool.false_eq_true, if_false, if_true]
          rw [hstep] at h
          exact ih hv2 _ _ ks ms h
      · have hstep : partitionStep (Except.ok (k0, m0)) u
            = Except.ok (k0 ++ [u.indexName], m0) := by
          rw [partitionStep]
          simp only [Except.bind, h1, if_true]
        rw [hstep] at h
        exact ih hv2 _ _ ks ms h

theorem lookup_mem_keys {l : List (String × Nat)} {k : String} {v : Nat}
    (h : l.lookup k = some v) : k ∈ l.map Prod.fst := by
  induction l with
  | nil => exact Option.noConfusion h
  | cons qv t ih =>
    cases qv with
    | mk q w =>
      rcases hkq : k == q with _ | _
      · simp only [List.lookup, hkq] at h
        exact List.mem_cons_of_mem _ (ih h)
      · have : k = q := by simpa using hkq
        subst this
        exact List.mem_cons_self _ _

theorem pairPath_mem_glob {disk : DiskFS} {name account : String} {sz : Nat}
    (h : disk.lookup (pairPath name account) = some sz) :
    pairPath name account ∈ glob disk := by
  apply List.mem_filter.mpr
  refine ⟨lookup_mem_keys h, ?_⟩
  have h1 : startsWithStr (pairPath name account) "./dist/indices/" = true := by
    rw [startsWithStr]
    apply List.isPrefixOf_iff_prefix.mpr
    have hd : (pairPath name account).data
        = "./dist/indices/".data
            ++ (name.data ++ ('-' :: account.data ++ ".json".data)) := by
      simp [pairPath, String.data_append]
    rw [hd]
    exact List.prefix_append _ _
  have h2 : endsWithStr (pairPath name account) ".json" = true := by
    rw [endsWithStr]
    apply List.isSuffixOf_iff_suffix.mpr
    have hd : (pairPath name account).data
        = ("./dist/indices/" ++ name ++ "-" ++ account).data ++ ".json".data := by
      rw [pairPath, String.data_append]
    rw [hd]
    exact List.suffix_append _ _
  rw [h1, h2]
  rfl

/-- Claim C9, counterexample: a kubernetes artifact stored for the EMPTY
index name (file `-kubernetes.json`) with no mesos counterpart does not make
the reporter raise: the falsey-name guard on src/index.js line 247 skips it
and the run returns an empty report, refuting the claim read over all index
names. -/
theorem C9_empty_name_counterexample :
    getDifferentIndices [(pairPath "" "kubernetes", 150)] = Except.ok [] := rfl

/-- Claim C9 (amended): if the artifact store holds a kubernetes artifact
for some NONEMPTY index name (containing no path separator) and no
corresponding mesos artifact, then `getDifferentIndices` raises (the stat of
the missing mesos file fails) and produces no report, rather than skipping
that index. -/
theorem C9_missing_mesos_error (disk : DiskFS) (name : String) (sz : Nat)
    (hne : name ≠ "") (hslash : ∀ ch ∈ name.data, ch ≠ '/')
    (hk : disk.lookup (pairPath name "kubernetes") = some sz)
    (hm : disk.lookup (pairPath name "mesos") = none) :
    ∃ e, getDifferentIndices disk = Except.error e := by
  rw [getDifferentIndices]
  rcases hp : partitionTypes ((glob disk).map parseArtifactPath) with e | r
  · exact ⟨e, rfl⟩
  · have hglob : pairPath name "kubernetes" ∈ glob disk := pairPath_mem_glob hk
    have hparsed : (⟨"kubernetes", name⟩ : ParsedPath)
        ∈ (glob disk).map parseArtifactPath := by
      have hmm := List.mem_map_of_mem parseArtifactPath hglob
      rwa [parseArtifactPath_pairPath name "kubernetes" (by decide) hslash] at hmm
    have hks : name ∈ r.1 := by
      rcases r with ⟨ks, ms⟩
      exact mem_kubernetes_of_partition _ _ hparsed rfl [] [] ks ms
        (by rw [← partitionTypes_eq_foldl]; exact hp)
    rcases foldl_genuine_missing disk r.1 name hks hne hm ([], 0) with ⟨e, he⟩
    refine ⟨e, ?_⟩
    show ((r.1.foldl (genuineStep disk) (Except.ok ([], 0))).map Prod.fst)
      = Except.error e
    rw [he]
    rfl

/-- Claim C9, witness: a store holding only `foo-kubernetes.json` makes the
reporter fail. -/
theorem C9_missing_mesos_error_witness :
    ∃ e, getDifferentIndices [(pairPath "foo" "kubernetes", 500)] = Except.error e :=
  C9_missing_mesos_error [(pairPath "foo" "kubernetes", 500)] "foo" 500
    (by decide) (by decide) rfl rfl

end AlgoliaAppDiff
